import Mathlib

/-!
Shallow embedding of `dump_functions.py` from the TaxDumpMaker repository.

Modelling conventions:
* a pandas cell is `Option String`; `none` models a missing value (NaN);
* a `pandas.DataFrame` is a `Table`: column labels plus rows of cells, each
  row aligned positionally with the column list (as a DataFrame guarantees);
* the ete3 resolver (`NCBITaxa.get_name_translator` restricted to a single
  query name) is a function `String → List Nat` returning the list of tax
  ids for the name, `[]` when the name is unknown;
* fallible Python code (IndexError on `iloc[0]` of an empty frame, KeyError
  on indexing a missing column, and the AttributeError ete3 raises when a
  non-string NaN cell reaches `get_name_translator`, which calls `.lower()`
  on every query) is modelled with `Option`: `none` means the function
  raises and no output file is written;
* the dump creators return the list of lines they would write to the output
  file instead of performing the write.
-/

/-- A single cell of the rank table; `none` models a pandas NaN. -/

abbrev Cell := Option String

/-- A pandas DataFrame of taxon ranks: column labels and rows of cells. -/

structure Table where
  cols : List String
  rows : List (List Cell)
deriving DecidableEq

/-- The external resolver: tax ids known for a name, `[]` when unknown. -/

abbrev NCBI := String → List Nat

/-- Source lines 25-36: `getTaxIDFromNCBI`.  Returns the string form of the
first tax id the resolver knows for `taxa`, and `taxa` itself when the
resolver does not know the name. -/

def getTaxIDFromNCBI (taxa : String) (ncbi_instance : NCBI) : String :=
  match ncbi_instance taxa with
  | [] => taxa
  | taxid :: _ => toString taxid

/-- Indexing a pandas Series built from a row: `row[label]`.  The outer
`Option` is `none` when the label is not a column (a KeyError in Python). -/

def seriesGet (cols : List String) (row : List Cell) (label : String) : Option Cell :=
  match cols.indexOf? label with
  | some i => row[i]?
  | none => none

/-- Total cell access used where the source has already checked that the
column exists (`create_nodes_dump` iterates only over columns of the frame,
and a DataFrame row always carries one cell per column). -/

def dfGet (cols : List String) (row : List Cell) (label : String) : Cell :=
  (seriesGet cols row label).getD none

/-- Pandas scalar inequality `x != y`: NaN compares unequal to everything,
including NaN itself. -/

def pdNeq : Cell → Cell → Bool
  | some a, some b => a != b
  | _, _ => true

/-- Source lines 49 and 83: the fixed rank order used by both emitters. -/

def rank_order : List String :=
  ["kingdom", "phylum", "class", "order", "family", "genus", "species"]

/-- Source line 84: the rank columns actually present in the frame. -/

def available_ranks (cols : List String) : List String :=
  rank_order.filter (fun rank => cols.contains rank)

/-! ### Imputer (source lines 8-22) -/

/-- Source line 15: `taxon_df.replace('unknown_rank_name', None)` under the
semantics of current pandas, where an explicit `value=None` replaces the
matched cells with missing values. -/

def replace_sentinel (t : Table) : Table :=
  { t with rows := t.rows.map (fun row =>
      row.map (fun c => if c = some "unknown_rank_name" then none else c)) }

/-- Source lines 16-21 restricted to one row: walk the cells left to right,
replacing each missing cell with `"unknown" ++ toString i` for the running
counter `i`, and return the next counter value. -/

def impute_cells (i : Nat) : List Cell → Nat × List Cell
  | [] => (i, [])
  | none :: cs =>
    let rest := impute_cells (i + 1) cs
    (rest.1, some ("unknown" ++ toString i) :: rest.2)
  | some v :: cs =>
    let rest := impute_cells i cs
    (rest.1, some v :: rest.2)

/-- Source lines 16-21: `np.where(pd.isnull ...)` enumerates the missing
positions in row-major order, and the loop substitutes the counter values. -/

def impute_rows (i : Nat) : List (List Cell) → List (List Cell)
  | [] => []
  | r :: rs =>
    let step := impute_cells i r
    step.2 :: impute_rows step.1 rs

/-- Source lines 8-22: `impute_taxons`, value-level behaviour. -/

def impute_taxons (t : Table) : Table :=
  let t := replace_sentinel t
  { t with rows := impute_rows 1 t.rows }

/-- A heap of DataFrame objects; a Python variable holds an index into it. -/

abbrev Store := List Table

/-- Source lines 8-22 again, with Python object identity made explicit to
express the frame condition: `taxon_df.copy()` (line 14) allocates a fresh
object, `replace` (line 15) allocates another, and the `iloc` loop
(lines 18-21) mutates only that last allocation in place.  Returns the
updated heap and a reference to the result object. -/

def impute_taxons_st (s : Store) (ref : Nat) : Store × Nat :=
  match s[ref]? with
  | none => (s, ref)
  | some df =>
    let s1 := s ++ [df]
    let s2 := s1 ++ [replace_sentinel df]
    let replRef := s1.length
    let s3 := s2.set replRef { replace_sentinel df with
      rows := impute_rows 1 (replace_sentinel df).rows }
    (s3, replRef)

/-! ### Names dump (source lines 39-67) -/

/-- The literal root entry of the names stream (source line 53). -/

def rootNameLine : String := "1\t|\troot\t|\t\t|\tscientific name\n"

/-- The literal root entry of the nodes stream (source line 88). -/

def rootNodeLine : String := "1\t|\t1\t|\tno rank\t|\n"

/-- Source lines 44-47, string body of `write_line`: the call sites pass
`level[0]`, so the emitted prefix is the first character of the rank label.
The appends are grouped so that the id field is a visible prefix; string
append is associative, so the emitted text is that of the source f-string. -/

def names_line (level name : String) (n : NCBI) : String :=
  (getTaxIDFromNCBI name n ++ "\t|\t") ++
    ((if name != "root" then level.take 1 ++ "__" ++ name else "root") ++
      "\t|\t\t|\tscientific name\n")

/-- Source lines 44-47: the inner `write_line` of `create_names_dump`.  A
missing cell is a float NaN in Python; handing it to the resolver raises
inside ete3 (which lowercases each query name), modelled by `none`. -/

def names_write_line (level : String) (name : Cell) (n : NCBI) : Option String :=
  match name with
  | none => none
  | some name => some (names_line level name n)

/-- Source lines 61-63, loop body for one rank column of one subsequent
record: read the cell and the predecessor's cell, and append a line when the
values differ under pandas `!=`. -/

def names_step (cols : List String) (previous row : List Cell) (n : NCBI)
    (ls : List String) (level : String) : Option (List String) := do
  let rc ← seriesGet cols row level
  let pc ← seriesGet cols previous level
  if pdNeq rc pc then do
    let l ← names_write_line level rc n
    pure (ls ++ [l])
  else
    pure ls

/-- Source lines 61-63: the per-record inner loop of `create_names_dump`,
emitting a line for each rank whose value differs from the value of the
immediately preceding record. -/

def names_row_lines (cols : List String) (previous row : List Cell) (n : NCBI) :
    Option (List String) :=
  rank_order.foldlM (names_step cols previous row n) []

/-- Source lines 59-64: the loop over `speciesSorted.iloc[1:]`, threading the
`previous` record. -/

def names_tail (cols : List String) (n : NCBI) :
    List Cell → List (List Cell) → Option (List String)
  | _, [] => some []
  | previous, row :: rows => do
    let ls ← names_row_lines cols previous row n
    let rest ← names_tail cols n row rows
    pure (ls ++ rest)

/-- Source lines 39-67: `create_names_dump`, returning the lines written to
`names.dmp`; `none` when the Python function raises (empty frame at
`iloc[0]`, missing rank column, or a NaN cell reaching the resolver). -/

def create_names_dump (speciesSorted : Table) (n : NCBI) : Option (List String) :=
  match speciesSorted.rows with
  | [] => none
  | first_entry :: rest => do
    let firstLines ← rank_order.mapM (fun level => do
      let c ← seriesGet speciesSorted.cols first_entry level
      names_write_line level c n)
    let tailLines ← names_tail speciesSorted.cols n first_entry rest
    pure (rootNameLine :: (firstLines ++ tailLines))

/-! ### Nodes dump (source lines 70-111) -/

/-- Python's `str.lower`, written so that it evaluates by kernel reduction
(`String.toLower` itself is defined by well-founded recursion). -/

def pyLower (s : String) : String := ⟨s.data.map Char.toLower⟩

/-- The (child-id, parent-id) pair as computed at source lines 98-99 and
identically at lines 76-77. -/

def entry_pair (n : NCBI) (e : String × String × String) : String × String :=
  (getTaxIDFromNCBI e.1 n,
   if e.2.1 != "root" then getTaxIDFromNCBI e.2.1 n else "1")

/-- Source lines 75-80: the inner `write_line` of `create_nodes_dump`. -/

def nodes_write_line (child parent rank : String) (n : NCBI) : String :=
  let p := entry_pair n (child, parent, rank)
  let formatted_rank := if rank != "" then pyLower rank else "no rank"
  p.1 ++ "\t|\t" ++ p.2 ++ "\t|\t" ++ formatted_rank ++ "\t|\n"

/-- State of `create_nodes_dump`: the dedup set `written_nodes` (source line
91), the `(child, parent, rank)` arguments of the `write_line` calls that
built `lines` (source line 103), and the sequence of names handed to the
resolver so far (the observable collaborator-call pattern: lines 98, 99, 76
and 77 each resolve one name). -/

structure NodesState where
  written : List (String × String)
  entries : List (String × String × String)
  trace : List String
deriving DecidableEq

/-- Source lines 94-108: the walk of one record's rank chain.  Stops at the
first missing value; for each present value resolves child and parent for
the dedup check, and on a fresh pair appends a line (whose `write_line`
resolves both names a second time). -/

def nodes_row_walk (cols : List String) (row : List Cell) (n : NCBI)
    (parent : String) (ranks : List String) (st : NodesState) : NodesState :=
  match ranks with
  | [] => st
  | rank :: ranks =>
    match dfGet cols row rank with
    | none => st
    | some child =>
      let node_pair := entry_pair n (child, parent, rank)
      let checkTrace := child :: (if parent != "root" then [parent] else [])
      if node_pair ∈ st.written then
        nodes_row_walk cols row n child ranks
          { st with trace := st.trace ++ checkTrace }
      else
        nodes_row_walk cols row n child ranks
          { written := st.written ++ [node_pair]
            entries := st.entries ++ [(child, parent, rank)]
            trace := st.trace ++ checkTrace ++ checkTrace }

/-- The initial state: the dedup set is seeded with the root pair (source
line 91). -/

def nodes_init : NodesState :=
  { written := [("1", "1")], entries := [], trace := [] }

/-- Source lines 93-108: the loop over all records. -/

def nodes_run (t : Table) (n : NCBI) : NodesState :=
  t.rows.foldl
    (fun st row => nodes_row_walk t.cols row n "root" (available_ranks t.cols) st)
    nodes_init

/-- Source lines 70-111: `create_nodes_dump`, returning the lines written to
`nodes.dmp` (the literal root entry of line 88 followed by the `write_line`
outputs, in emission order). -/

def create_nodes_dump (speciesSorted : Table) (n : NCBI) : List String :=
  rootNodeLine ::
    (nodes_run speciesSorted n).entries.map (fun e => nodes_write_line e.1 e.2.1 e.2.2 n)

/-- The (child-id, parent-id) fields of the emitted nodes lines, root entry
included, in emission order. -/

def nodes_pairs (t : Table) (n : NCBI) : List (String × String) :=
  ("1", "1") :: (nodes_run t n).entries.map (entry_pair n)

/-- The sequence of names handed to the resolver while building the nodes
stream. -/

def nodes_resolve_trace (t : Table) (n : NCBI) : List String :=
  (nodes_run t n).trace

/-- The (child-id, parent-id) pairs a single record's rank walk yields,
before any deduplication: the resolved pairs at the successive steps of the
walk of source lines 94-105, stopping at the first missing rank. -/

def row_chain_pairs (cols : List String) (row : List Cell) (n : NCBI) :
    String → List String → List (String × String)
  | _, [] => []
  | parent, rank :: ranks =>
    match dfGet cols row rank with
    | none => []
    | some child =>
      entry_pair n (child, parent, rank) :: row_chain_pairs cols row n child ranks

/-- Number of name occurrences one record contributes to the nodes pass: the
cells of its rank chain up to the first missing value. -/

def row_reached (cols : List String) (row : List Cell) : Nat :=
  ((available_ranks cols).takeWhile (fun rk => (dfGet cols row rk).isSome)).length

/-- Total name occurrences processed by the nodes pass over a table. -/

def nodes_occurrences (t : Table) : Nat :=
  (t.rows.map (fun row => row_reached t.cols row)).sum

/-! ### Decimal printing: `toString` on `Nat` is injective -/

/-- Decimal digit list of a natural number (most significant first), the
mathematical shape of `Nat.toDigitsCore`. -/

def decRep (n : Nat) : List Char :=
  if n < 10 then [Nat.digitChar n]
  else decRep (n / 10) ++ [Nat.digitChar (n % 10)]
decreasing_by exact Nat.div_lt_self (by omega) (by omega)

/-! ### Imputer lemmas -/

/-- Missingness after the sentinel replacement: a pandas NaN. -/

def isNa (c : Cell) : Bool := c.isNone

@[simp] lemma isNa_none : isNa none = true := rfl

@[simp] lemma isNa_some (v : String) : isNa (some v) = false := rfl

/-- A cell the imputer replaces: originally missing, or holding the known
sentinel value. -/

def cell_missing (c : Cell) : Bool := c == none || c == some "unknown_rank_name"

/-- Number of imputed cells in the row-major prefix strictly before position
(i, j) of the table. -/

def missing_before (t : Table) (i j : Nat) : Nat :=
  ((t.rows.take i).map (fun r => r.countP cell_missing)).sum +
    ((t.rows[i]?.getD []).take j).countP cell_missing

/-- Concrete table for the C6 witness. -/

def C6T : Table :=
  { cols := ["kingdom", "phylum"],
    rows := [[some "A", none], [some "unknown_rank_name", some "B"]] }

/-- Concrete inputs for the C9 witness. -/

def C9T : Table := { cols := ["kingdom"], rows := [[none]] }

/-- The dedup-set invariant of the nodes walk: the `written_nodes` set is
exactly the root pair followed by the id pairs of the emitted entries, with
no duplicates. -/

def NodesInv (n : NCBI) (st : NodesState) : Prop :=
  st.written = ("1", "1") :: st.entries.map (entry_pair n) ∧ st.written.Nodup

/-- A resolver that knows no name at all (everything resolves by fallback). -/

def ncbiNone : NCBI := fun _ => []

/-- Concrete two-record table sharing the kingdom "A". -/

def tableAB : Table where
  cols := ["kingdom", "species"]
  rows := [[some "A", some "S"], [some "A", some "T"]]

/-- Single-column, single-record table. -/

def tableK : Table where
  cols := ["kingdom"]
  rows := [[some "A"]]

/-- Seven-column, single-record table with distinct values. -/

def table7 : Table where
  cols := rank_order
  rows := [[some "A", some "B", some "C", some "D", some "E", some "F", some "G"]]

/-- A record with a gap: kingdom "A", phylum missing, class "B". -/

def tableGap : Table where
  cols := rank_order
  rows := [[some "A", none, some "B", none, none, none, none]]

/-! ### Names-stream characterization -/

/-- Boolean completeness check: every record holds a string value at every
one of the seven rank columns. -/

def rows_complete (t : Table) : Bool :=
  t.rows.all (fun row => rank_order.all (fun lvl =>
    match seriesGet t.cols row lvl with
    | some (some _) => true
    | _ => false))

/-- Lines the names emitter writes for the first record: one line per rank
column, in rank order. -/

def names_first_chunk (cols : List String) (r0 : List Cell) (n : NCBI) :
    List String :=
  rank_order.filterMap (fun lvl => names_write_line lvl (dfGet cols r0 lvl) n)

/-- Lines the names emitter writes for one subsequent record: one line per
rank column whose value differs (pandas `!=`) from the value of the
immediately preceding record at that column. -/

def names_chunk (cols : List String) (prev row : List Cell) (n : NCBI) :
    List String :=
  rank_order.filterMap (fun lvl =>
    if pdNeq (dfGet cols row lvl) (dfGet cols prev lvl) then
      names_write_line lvl (dfGet cols row lvl) n
    else none)

/-- Lines of all subsequent records: each record is compared only against
its immediate predecessor (the zip of adjacent row pairs). -/

def names_chunks (cols : List String) (r0 : List Cell)
    (rows : List (List Cell)) (n : NCBI) : List String :=
  ((r0 :: rows).zip rows).flatMap (fun pr => names_chunk cols pr.1 pr.2 n)

/-- Boolean test that the names line carries the given identifier in its
first field: the line starts with the identifier followed by the field
separator. -/

def line_has_id (pid line : String) : Bool :=
  (pid ++ "\t|\t").data.isPrefixOf line.data

/-- Three-record table whose third record repeats the first record's species
after an intervening different one. -/

def tableC4 : Table where
  cols := rank_order
  rows := [[some "A", some "B", some "C", some "D", some "E", some "F", some "S"],
    [some "A", some "B", some "C", some "D", some "E", some "F", some "T"],
    [some "A", some "B", some "C", some "D", some "E", some "F", some "S"]]

/-- A record whose kingdom is literally named "root". -/

def tableRootCell : Table where
  cols := rank_order
  rows := [[some "root", some "B", some "C", some "D", some "E", some "F", some "G"]]

/-- The real NCBI resolver maps the name "root" to tax id 1. -/

def ncbiRoot : NCBI := fun s => if s = "root" then [1] else []

/-- A record naming its kingdom and phylum identically ("A"), so one
identifier owns two names-stream lines. -/

def tableDupName : Table where
  cols := rank_order
  rows := [[some "A", some "A", some "C", some "D", some "E", some "F", some "G"]]

/-! ## Lemmas and claim theorems -/

/-! ### Sanity checks of the embedding on concrete inputs -/

example :
    create_names_dump
      { cols := rank_order,
        rows := [[some "A", some "B", some "C", some "D", some "E", some "F", some "G"]] }
      (fun _ => []) =
    some [rootNameLine,
      "A\t|\tk__A\t|\t\t|\tscientific name\n",
      "B\t|\tp__B\t|\t\t|\tscientific name\n",
      "C\t|\tc__C\t|\t\t|\tscientific name\n",
      "D\t|\to__D\t|\t\t|\tscientific name\n",
      "E\t|\tf__E\t|\t\t|\tscientific name\n",
      "F\t|\tg__F\t|\t\t|\tscientific name\n",
      "G\t|\ts__G\t|\t\t|\tscientific name\n"] := by
  decide

example :
    create_nodes_dump
      { cols := ["kingdom", "species"],
        rows := [[some "A", some "S"], [some "A", some "T"]] }
      (fun s => if s = "A" then [7] else []) =
    [rootNodeLine,
      "7\t|\t1\t|\tkingdom\t|\n",
      "S\t|\t7\t|\tspecies\t|\n",
      "T\t|\t7\t|\tspecies\t|\n"] := by
  decide

example :
    impute_taxons
      { cols := ["kingdom", "phylum"],
        rows := [[some "A", none], [none, some "unknown_rank_name"]] } =
    { cols := ["kingdom", "phylum"],
      rows := [[some "A", some "unknown1"], [some "unknown2", some "unknown3"]] } := by
  decide

example :
    create_names_dump { cols := rank_order, rows := [] } (fun _ => []) = none := by
  decide

lemma decRep_small {n : Nat} (h : n < 10) : decRep n = [Nat.digitChar n] := by
  conv_lhs => rw [decRep.eq_def]
  rw [if_pos h]

lemma decRep_large {n : Nat} (h : ¬ n < 10) :
    decRep n = decRep (n / 10) ++ [Nat.digitChar (n % 10)] := by
  conv_lhs => rw [decRep.eq_def]
  rw [if_neg h]

lemma decRep_length_pos (n : Nat) : 0 < (decRep n).length := by
  by_cases h : n < 10
  · rw [decRep_small h]; simp
  · rw [decRep_large h]; simp

lemma toDigitsCore_eq_decRep (fuel : Nat) :
    ∀ n ds, n < 10 ^ fuel → 0 < fuel →
      Nat.toDigitsCore 10 fuel n ds = decRep n ++ ds := by
  induction fuel with
  | zero => intro n ds _ h; omega
  | succ f ih =>
    intro n ds hlt _
    have hstep : Nat.toDigitsCore 10 (f + 1) n ds =
        (if n / 10 = 0 then Nat.digitChar (n % 10) :: ds
         else Nat.toDigitsCore 10 f (n / 10) (Nat.digitChar (n % 10) :: ds)) := by
      simp [Nat.toDigitsCore]
    rw [hstep]
    by_cases h10 : n / 10 = 0
    · have hn : n < 10 := by omega
      rw [if_pos h10, decRep_small hn, Nat.mod_eq_of_lt hn]
      rfl
    · have hge : 10 ≤ n := by omega
      have hf : 0 < f := by
        rcases Nat.eq_zero_or_pos f with h | h
        · subst h; simp at hlt; omega
        · exact h
      have hdiv : n / 10 < 10 ^ f := by
        have hmul : n < 10 ^ f * 10 := by
          have := hlt
          rw [pow_succ] at this
          omega
        omega
      rw [if_neg h10, ih (n / 10) (Nat.digitChar (n % 10) :: ds) hdiv hf,
        decRep_large (by omega : ¬ n < 10)]
      simp

lemma digitChar_inj (a b : Nat) (ha : a < 10) (hb : b < 10)
    (h : Nat.digitChar a = Nat.digitChar b) : a = b := by
  interval_cases a <;> interval_cases b <;> revert h <;> decide

lemma decRep_inj (m : Nat) : ∀ n, decRep m = decRep n → m = n := by
  induction m using Nat.strong_induction_on with
  | _ m ih =>
    intro n h
    by_cases hm : m < 10 <;> by_cases hn : n < 10
    · rw [decRep_small hm, decRep_small hn] at h
      exact digitChar_inj m n hm hn (by injection h)
    · have hlen := congrArg List.length h
      rw [decRep_small hm, decRep_large hn] at hlen
      simp only [List.length_append, List.length_cons, List.length_nil] at hlen
      have hpos := decRep_length_pos (n / 10)
      omega
    · have hlen := congrArg List.length h
      rw [decRep_large hm, decRep_small hn] at hlen
      simp only [List.length_append, List.length_cons, List.length_nil] at hlen
      have hpos := decRep_length_pos (m / 10)
      omega
    · rw [decRep_large hm, decRep_large hn] at h
      obtain ⟨h1, h2⟩ := List.append_inj' h (by simp)
      have hdiv : m / 10 = n / 10 :=
        ih (m / 10) (Nat.div_lt_self (by omega) (by omega)) (n / 10) h1
      have hmod : m % 10 = n % 10 :=
        digitChar_inj (m % 10) (n % 10) (Nat.mod_lt m (by omega)) (Nat.mod_lt n (by omega))
          (by injection h2)
      omega

lemma toString_eq_decRep (n : Nat) : toString n = (decRep n).asString := by
  have h1 : toString n = (Nat.toDigitsCore 10 (n + 1) n []).asString := rfl
  have hlt : n < 10 ^ (n + 1) := by
    calc n < 10 ^ n := Nat.lt_pow_self (by omega) n
    _ ≤ 10 ^ (n + 1) := Nat.pow_le_pow_right (by omega) (Nat.le_succ n)
  rw [h1, toDigitsCore_eq_decRep (n + 1) n [] hlt (by omega)]
  simp

lemma natToString_inj {m n : Nat} (h : toString m = toString n) : m = n := by
  rw [toString_eq_decRep, toString_eq_decRep] at h
  exact decRep_inj m n (congrArg String.data h)

lemma impute_cells_fst (row : List Cell) :
    ∀ i, (impute_cells i row).1 = i + row.countP isNa := by
  induction row with
  | nil => intro i; simp [impute_cells]
  | cons c cs ih =>
    intro i
    cases c with
    | none => simp [impute_cells, ih, List.countP_cons]; omega
    | some v => simp [impute_cells, ih, List.countP_cons]

lemma impute_cells_get_none (row : List Cell) :
    ∀ i j, row[j]? = some none →
      (impute_cells i row).2[j]? =
        some (some ("unknown" ++ toString (i + (row.take j).countP isNa))) := by
  induction row with
  | nil => intro i j h; simp at h
  | cons c cs ih =>
    intro i j h
    cases j with
    | zero =>
      simp at h
      subst h
      simp [impute_cells]
    | succ j =>
      simp only [List.getElem?_cons_succ] at h
      cases c with
      | none =>
        have hrec := ih (i + 1) j h
        simp only [impute_cells, List.getElem?_cons_succ, hrec,
          List.take_succ_cons, List.countP_cons, isNa_none, if_pos]
        have harith : i + 1 + (cs.take j).countP isNa =
            i + ((cs.take j).countP isNa + 1) := by omega
        rw [harith]
      | some v =>
        have hrec := ih i j h
        simp only [impute_cells, List.getElem?_cons_succ, hrec,
          List.take_succ_cons, List.countP_cons, isNa_some]
        simp

lemma impute_cells_get_some (row : List Cell) :
    ∀ (i j : Nat) (v : String), row[j]? = some (some v) →
      (impute_cells i row).2[j]? = some (some v) := by
  induction row with
  | nil => intro i j v h; simp at h
  | cons c cs ih =>
    intro i j v h
    cases j with
    | zero =>
      simp at h
      subst h
      simp [impute_cells]
    | succ j =>
      simp only [List.getElem?_cons_succ] at h
      cases c with
      | none => simpa [impute_cells] using ih (i + 1) j v h
      | some w => simpa [impute_cells] using ih i j v h

lemma impute_rows_get (rs : List (List Cell)) :
    ∀ i k r, rs[k]? = some r →
      (impute_rows i rs)[k]? =
        some (impute_cells
          (i + ((rs.take k).map (fun r => r.countP isNa)).sum) r).2 := by
  induction rs with
  | nil => intro i k r h; simp at h
  | cons r0 rs ih =>
    intro i k r h
    cases k with
    | zero =>
      simp at h
      subst h
      simp [impute_rows]
    | succ k =>
      simp only [List.getElem?_cons_succ] at h
      have hrec := ih (impute_cells i r0).1 k r h
      simp only [impute_rows, List.getElem?_cons_succ, hrec, List.take_succ_cons,
        List.map_cons, List.sum_cons]
      rw [impute_cells_fst]
      have harith : i + r0.countP isNa + ((rs.take k).map (fun r => r.countP isNa)).sum =
          i + (r0.countP isNa + ((rs.take k).map (fun r => r.countP isNa)).sum) := by
        omega
      rw [harith]

/-- The sentinel replacement turns exactly the `cell_missing` cells into
`none` and leaves every other cell unchanged. -/

lemma replace_cell_isNa (c : Cell) :
    isNa (if c = some "unknown_rank_name" then none else c) = cell_missing c := by
  cases c with
  | none => simp [cell_missing]
  | some v =>
    by_cases hv : v = "unknown_rank_name" <;> simp [cell_missing, hv]

lemma replace_cell_of_not_missing (c : Cell) (h : cell_missing c = false) :
    ((if c = some "unknown_rank_name" then none else c) : Cell) = c := by
  cases c with
  | none => simp [cell_missing] at h
  | some v =>
    simp [cell_missing] at h
    simp [h]

lemma countP_take_mono {α : Type} (p : α → Bool) (l : List α) {m m' : Nat}
    (h : m ≤ m') : (l.take m).countP p ≤ (l.take m').countP p := by
  have heq : l.take m = (l.take m').take m := by
    rw [List.take_take]
    congr 1
    omega
  rw [heq]
  exact (List.take_sublist _ _).countP_le p

lemma sum_take_mono (l : List Nat) {m m' : Nat} (h : m ≤ m') :
    (l.take m).sum ≤ (l.take m').sum := by
  have heq : l.take m = (l.take m').take m := by
    rw [List.take_take]
    congr 1
    omega
  rw [heq]
  exact ((List.take_sublist _ _).sum_le_sum (fun a _ => Nat.zero_le a))

lemma replace_cell_of_missing (c : Cell) (h : cell_missing c = true) :
    ((if c = some "unknown_rank_name" then none else c) : Cell) = none := by
  cases c with
  | none => simp
  | some v =>
    simp [cell_missing] at h
    simp [h]

lemma cell_missing_false_elim (c : Cell) (h : cell_missing c = false) :
    ∃ v, c = some v ∧ v ≠ "unknown_rank_name" := by
  cases c with
  | none => simp [cell_missing] at h
  | some v =>
    simp [cell_missing] at h
    exact ⟨v, rfl, h⟩

lemma unknown_label_inj {a b : Nat}
    (h : "unknown" ++ toString a = "unknown" ++ toString b) : a = b := by
  have hd := congrArg String.data h
  rw [String.data_append, String.data_append] at hd
  exact natToString_inj (String.ext (List.append_cancel_left hd))

/-- Strict growth of the imputation counter along the row-major order, at a
position that is itself imputed. -/

lemma missing_before_strict (t : Table) {i j i' j' : Nat} {row : List Cell}
    {c : Cell} (h1 : t.rows[i]? = some row) (hc : row[j]? = some c)
    (hm : cell_missing c = true)
    (hrm : i < i' ∨ (i = i' ∧ j < j')) :
    missing_before t i j < missing_before t i' j' := by
  have htake : (row.take (j + 1)).countP cell_missing =
      (row.take j).countP cell_missing + 1 := by
    rw [List.take_succ, hc]
    simp [List.countP_append, List.countP_cons, hm]
  rcases hrm with hlt | ⟨heq, hj⟩
  · -- later row: the whole of `row` is counted in the prefix sum
    have hrowcnt : (row.take j).countP cell_missing + 1 ≤ row.countP cell_missing := by
      have h2 : (row.take (j + 1)).countP cell_missing ≤ row.countP cell_missing :=
        (List.take_sublist _ _).countP_le cell_missing
      omega
    have hsum : ((t.rows.take (i + 1)).map (fun r => r.countP cell_missing)).sum =
        ((t.rows.take i).map (fun r => r.countP cell_missing)).sum +
          row.countP cell_missing := by
      rw [List.take_succ, h1]
      simp
    have hmono : ((t.rows.take (i + 1)).map (fun r => r.countP cell_missing)).sum ≤
        ((t.rows.take i').map (fun r => r.countP cell_missing)).sum := by
      rw [List.map_take, List.map_take]
      exact sum_take_mono _ hlt
    unfold missing_before
    rw [h1]
    simp only [Option.getD_some]
    omega
  · subst heq
    unfold missing_before
    rw [h1]
    simp only [Option.getD_some]
    have h2 : (row.take (j + 1)).countP cell_missing ≤
        (row.take j').countP cell_missing := countP_take_mono cell_missing row hj
    omega

lemma countP_map_replace (r : List Cell) :
    (r.map (fun c => if c = some "unknown_rank_name" then none else c)).countP isNa =
      r.countP cell_missing := by
  rw [List.countP_map]
  apply List.countP_congr
  intro c _
  rw [Function.comp_apply, replace_cell_isNa]

/-- Pointwise description of the imputed table: the counter of a missing
position is one plus the number of missing cells strictly before it in
row-major order, and non-missing cells are unchanged. -/

lemma impute_taxons_get (t : Table) (i j : Nat) (row : List Cell) (c : Cell)
    (h1 : t.rows[i]? = some row) (hc : row[j]? = some c) :
    ((impute_taxons t).rows[i]?.getD [])[j]? =
      some (if cell_missing c then
        some ("unknown" ++ toString (1 + missing_before t i j)) else c) := by
  have hrepl : (replace_sentinel t).rows[i]? =
      some (row.map (fun c => if c = some "unknown_rank_name" then none else c)) := by
    simp only [replace_sentinel, List.getElem?_map, h1]
    rfl
  have hrows : (impute_taxons t).rows = impute_rows 1 (replace_sentinel t).rows := rfl
  have hget := impute_rows_get (replace_sentinel t).rows 1 i
    (row.map (fun c => if c = some "unknown_rank_name" then none else c)) hrepl
  have hcounts : (((replace_sentinel t).rows.take i).map (fun r => r.countP isNa)).sum =
      ((t.rows.take i).map (fun r => r.countP cell_missing)).sum := by
    simp only [replace_sentinel]
    rw [← List.map_take, List.map_map]
    congr 1
    apply List.map_congr_left
    intro r _
    exact countP_map_replace r
  have hcell : (row.map (fun c => if c = some "unknown_rank_name" then none else c))[j]? =
      some (if c = some "unknown_rank_name" then none else c) := by
    simp only [List.getElem?_map, hc]
    rfl
  rw [hrows, hget, hcounts]
  simp only [Option.getD_some]
  by_cases hmiss : cell_missing c = true
  · have hcell' : (row.map (fun c => if c = some "unknown_rank_name" then none else c))[j]? =
        some none := by
      rw [hcell, replace_cell_of_missing c hmiss]
    have := impute_cells_get_none
      (row.map (fun c => if c = some "unknown_rank_name" then none else c))
      (1 + ((t.rows.take i).map (fun r => r.countP cell_missing)).sum) j hcell'
    rw [this]
    have htk : ((row.map (fun c => if c = some "unknown_rank_name" then none else c)).take j).countP isNa =
        (row.take j).countP cell_missing := by
      rw [← List.map_take]
      exact countP_map_replace (row.take j)
    rw [htk, hmiss]
    simp only [if_true]
    have harith : 1 + ((t.rows.take i).map (fun r => r.countP cell_missing)).sum +
          (row.take j).countP cell_missing = 1 + missing_before t i j := by
      unfold missing_before
      rw [h1]
      simp only [Option.getD_some]
      omega
    rw [harith]
  · have hmiss' : cell_missing c = false := by
      revert hmiss
      cases cell_missing c <;> simp
    obtain ⟨v, hv, hvs⟩ := cell_missing_false_elim c hmiss'
    subst hv
    have hcell' : (row.map (fun c => if c = some "unknown_rank_name" then none else c))[j]? =
        some (some v) := by
      rw [hcell, replace_cell_of_not_missing (some v) hmiss']
    have := impute_cells_get_some
      (row.map (fun c => if c = some "unknown_rank_name" then none else c))
      (1 + ((t.rows.take i).map (fun r => r.countP cell_missing)).sum) j v hcell'
    rw [this, hmiss']
    simp

/-- Definitional unfolding of `create_names_dump` on a non-empty table. -/

lemma create_names_dump_cons (cols : List String) (first_entry : List Cell)
    (rest : List (List Cell)) (n : NCBI) :
    create_names_dump ⟨cols, first_entry :: rest⟩ n =
      (rank_order.mapM (fun level =>
        (seriesGet cols first_entry level) >>= fun c => names_write_line level c n)) >>=
      fun firstLines => (names_tail cols n first_entry rest) >>= fun tailLines =>
        pure (rootNameLine :: (firstLines ++ tailLines)) := rfl

lemma create_names_dump_nil (cols : List String) (n : NCBI) :
    create_names_dump ⟨cols, []⟩ n = none := rfl

lemma indexOf?_eq_none_of_not_mem {l : List String} {x : String} (h : x ∉ l) :
    l.indexOf? x = none := by
  rw [List.indexOf?_eq_none_iff]
  intro y hy
  simp only [beq_iff_eq]
  rintro rfl
  exact h hy

lemma mapM_eq_none_of_mem {α β : Type} {f : α → Option β} {l : List α} {x : α}
    (hx : x ∈ l) (hf : f x = none) : l.mapM f = none := by
  induction l with
  | nil => simp at hx
  | cons a l ih =>
    rcases List.mem_cons.mp hx with rfl | hmem
    · rw [List.mapM_cons, hf]
      rfl
    · cases hfa : f a with
      | none =>
        rw [List.mapM_cons, hfa]
        rfl
      | some b =>
        rw [List.mapM_cons, hfa, ih hmem]
        rfl

lemma nodes_run_no_ranks (t : Table) (n : NCBI)
    (h : available_ranks t.cols = []) : nodes_run t n = nodes_init := by
  unfold nodes_run
  rw [h]
  induction t.rows with
  | nil => rfl
  | cons r rs ih =>
    simp only [List.foldl_cons]
    exact ih

/-! ## Claim theorems -/

/-- C6: the imputer replaces exactly the missing cells (null or the sentinel
value `unknown_rank_name`), labelling the cell at position (i, j) with
"unknown"++N where N = 1 + the number of missing cells strictly before it in
row-major scan order (so numbering starts at 1 and increments by one per
replacement regardless of column), every originally non-missing cell keeps
its value, and the placeholder labels of any two distinct imputed positions
are distinct. -/

theorem C6_imputer_numbering (t : Table) :
    (∀ (i j : Nat) (row : List Cell) (c : Cell),
      t.rows[i]? = some row → row[j]? = some c →
      ((impute_taxons t).rows[i]?.getD [])[j]? =
        some (if cell_missing c then
          some ("unknown" ++ toString (1 + missing_before t i j)) else c)) ∧
    (∀ (i j i' j' : Nat) (row row' : List Cell) (c c' : Cell),
      t.rows[i]? = some row → row[j]? = some c → cell_missing c = true →
      t.rows[i']? = some row' → row'[j']? = some c' → cell_missing c' = true →
      (i, j) ≠ (i', j') →
      "unknown" ++ toString (1 + missing_before t i j) ≠
        "unknown" ++ toString (1 + missing_before t i' j')) := by
  constructor
  · intro i j row c h1 hc
    exact impute_taxons_get t i j row c h1 hc
  · intro i j i' j' row row' c c' h1 hc hm h1' hc' hm' hne
    intro heq
    have hcnt : 1 + missing_before t i j = 1 + missing_before t i' j' :=
      unknown_label_inj heq
    have hmb : missing_before t i j = missing_before t i' j' := by omega
    rcases Nat.lt_trichotomy i i' with hlt | hieq | hgt
    · have := @missing_before_strict t i j i' j' row c h1 hc hm (Or.inl hlt)
      omega
    · subst hieq
      rw [h1] at h1'
      injection h1' with hrow
      subst hrow
      rcases Nat.lt_trichotomy j j' with hjlt | hjeq | hjgt
      · have := @missing_before_strict t i j i j' row c h1 hc hm (Or.inr ⟨rfl, hjlt⟩)
        omega
      · exact hne (by rw [hjeq])
      · have := @missing_before_strict t i j' i j row c' h1 hc' hm' (Or.inr ⟨rfl, hjgt⟩)
        omega
    · have := @missing_before_strict t i' j' i j row' c' h1' hc' hm' (Or.inl hgt)
      omega

/-- Witness for C6 at a concrete table: the NaN at (0,1) becomes "unknown1",
and the labels of the two imputed positions (0,1) and (1,0) differ. -/

theorem C6_imputer_numbering_witness :
    ((impute_taxons C6T).rows[0]?.getD [])[1]? = some (some "unknown1") ∧
    "unknown" ++ toString (1 + missing_before C6T 0 1) ≠
      "unknown" ++ toString (1 + missing_before C6T 1 0) := by
  constructor
  · have h := (C6_imputer_numbering C6T).1 0 1 [some "A", none] none rfl rfl
    have e : (if cell_missing (none : Cell) then
        some ("unknown" ++ toString (1 + missing_before C6T 0 1))
        else (none : Cell)) = some "unknown1" := by decide
    rw [e] at h
    exact h
  · exact (C6_imputer_numbering C6T).2 0 1 1 0
      [some "A", none] [some "unknown_rank_name", some "B"]
      none (some "unknown_rank_name")
      rfl rfl rfl rfl rfl rfl (by decide)

/-- C7: the resolution operation returns the resolver's identifier (the
string form of the first known tax id) when the resolver knows the name, and
otherwise returns the input name itself, unchanged, as the fallback; a miss
is never an error (the function is total and the caller proceeds with the
returned value). -/

theorem C7_resolver_fallback (n : NCBI) (taxa : String) :
    (n taxa = [] → getTaxIDFromNCBI taxa n = taxa) ∧
    (∀ (taxid : Nat) (rest : List Nat), n taxa = taxid :: rest →
      getTaxIDFromNCBI taxa n = toString taxid) := by
  constructor
  · intro h
    simp [getTaxIDFromNCBI, h]
  · intro taxid rest h
    simp [getTaxIDFromNCBI, h]

/-- Witness for C7: a hit returns the resolver's identifier, a miss returns
the name unchanged. -/

theorem C7_resolver_fallback_witness :
    getTaxIDFromNCBI "Homo sapiens" (fun _ => [9606]) = "9606" ∧
    getTaxIDFromNCBI "Nessie" (fun _ => []) = "Nessie" :=
  ⟨(C7_resolver_fallback (fun _ => [9606]) "Homo sapiens").2 9606 [] rfl,
   (C7_resolver_fallback (fun _ => []) "Nessie").1 rfl⟩

/-- C9: the imputer mutates nothing but its own fresh allocations: after the
call, the caller's original object is unchanged (every cell equals its
pre-call value), the returned reference holds the imputed table, and it is a
different object from the argument. -/

theorem C9_imputer_frame (s : Store) (ref : Nat) (df : Table)
    (h : s[ref]? = some df) :
    (impute_taxons_st s ref).1[ref]? = some df ∧
    (impute_taxons_st s ref).1[(impute_taxons_st s ref).2]? = some (impute_taxons df) ∧
    (impute_taxons_st s ref).2 ≠ ref := by
  have hlt : ref < s.length := by
    by_contra hge
    rw [List.getElem?_eq_none (by omega)] at h
    exact Option.noConfusion h
  have hlen1 : (s ++ [df]).length = s.length + 1 := by simp
  have hlen2 : (s ++ [df] ++ [replace_sentinel df]).length = s.length + 2 := by simp
  simp only [impute_taxons_st, h]
  refine ⟨?_, ?_, ?_⟩
  · rw [List.getElem?_set, if_neg (by omega : ¬ (s ++ [df]).length = ref)]
    rw [List.getElem?_append, if_pos (by omega : ref < (s ++ [df]).length)]
    rw [List.getElem?_append, if_pos hlt]
    exact h
  · rw [List.getElem?_set, if_pos rfl, if_pos (by omega : (s ++ [df]).length <
      (s ++ [df] ++ [replace_sentinel df]).length)]
    rfl
  · omega

/-- Witness for C9 at a one-object heap. -/

theorem C9_imputer_frame_witness :
    (impute_taxons_st [C9T] 0).1[0]? = some C9T ∧
    (impute_taxons_st [C9T] 0).1[(impute_taxons_st [C9T] 0).2]? =
      some (impute_taxons C9T) ∧
    (impute_taxons_st [C9T] 0).2 ≠ 0 :=
  C9_imputer_frame [C9T] 0 C9T rfl

/-- C10: the names emitter unconditionally reads the first row and indexes
all seven hard-coded rank labels, so it raises (produces no stream) on an
empty table and on a table missing any of the seven rank columns; the nodes
emitter instead restricts itself to the columns actually present and still
produces its stream (exactly the root line) on an empty table or a table
with no rank columns at all. -/

theorem C10_names_requires_columns (t : Table) (n : NCBI) :
    (t.rows = [] → create_names_dump t n = none) ∧
    (∀ lvl ∈ rank_order, lvl ∉ t.cols →
      create_names_dump t n = none) ∧
    (t.rows = [] → create_nodes_dump t n = [rootNodeLine]) ∧
    ((∀ lvl ∈ rank_order, lvl ∉ t.cols) →
      create_nodes_dump t n = [rootNodeLine]) := by
  refine ⟨?_, ?_, ?_, ?_⟩
  · intro h
    unfold create_names_dump
    rw [h]
  · intro lvl hmem hnot
    obtain ⟨cols, rows⟩ := t
    simp only at hnot
    cases rows with
    | nil => exact create_names_dump_nil cols n
    | cons first_entry rest =>
      have hser : seriesGet cols first_entry lvl = none := by
        unfold seriesGet
        rw [indexOf?_eq_none_of_not_mem hnot]
      have hnone : (fun level => (seriesGet cols first_entry level) >>= fun c =>
          names_write_line level c n) lvl = none := by
        show (seriesGet cols first_entry lvl) >>= _ = none
        rw [hser]
        rfl
      rw [create_names_dump_cons, mapM_eq_none_of_mem hmem hnone]
      rfl
  · intro h
    unfold create_nodes_dump nodes_run
    rw [h]
    rfl
  · intro h
    have havail : available_ranks t.cols = [] := by
      rw [available_ranks, List.filter_eq_nil_iff]
      intro lvl hmem
      simpa using h lvl hmem
    rw [create_nodes_dump, nodes_run_no_ranks t n havail]
    rfl

/-- Witness for C10: a table missing the rank columns and an empty table. -/

theorem C10_names_requires_columns_witness :
    create_names_dump { cols := ["foo"], rows := [[some "x"]] } (fun _ => []) = none ∧
    create_nodes_dump { cols := ["foo"], rows := [[some "x"]] } (fun _ => []) =
      [rootNodeLine] ∧
    create_names_dump { cols := rank_order, rows := [] } (fun _ => []) = none ∧
    create_nodes_dump { cols := rank_order, rows := [] } (fun _ => []) =
      [rootNodeLine] :=
  ⟨(C10_names_requires_columns { cols := ["foo"], rows := [[some "x"]] }
      (fun _ => [])).2.1 "kingdom" (by decide) (by decide),
   (C10_names_requires_columns { cols := ["foo"], rows := [[some "x"]] }
      (fun _ => [])).2.2.2 (by decide),
   (C10_names_requires_columns { cols := rank_order, rows := [] }
      (fun _ => [])).1 rfl,
   (C10_names_requires_columns { cols := rank_order, rows := [] }
      (fun _ => [])).2.2.1 rfl⟩

/-! ### Nodes-walk lemmas -/

lemma nodes_row_walk_nil (cols : List String) (row : List Cell) (n : NCBI)
    (parent : String) (st : NodesState) :
    nodes_row_walk cols row n parent [] st = st := rfl

lemma nodes_row_walk_cons_none (cols : List String) (row : List Cell) (n : NCBI)
    (parent rank : String) (ranks : List String) (st : NodesState)
    (h : dfGet cols row rank = none) :
    nodes_row_walk cols row n parent (rank :: ranks) st = st := by
  unfold nodes_row_walk
  rw [h]

lemma nodes_row_walk_cons_some (cols : List String) (row : List Cell) (n : NCBI)
    (parent rank : String) (ranks : List String) (st : NodesState) (child : String)
    (h : dfGet cols row rank = some child) :
    nodes_row_walk cols row n parent (rank :: ranks) st =
      (if entry_pair n (child, parent, rank) ∈ st.written then
        nodes_row_walk cols row n child ranks
          { st with trace := st.trace ++
              (child :: (if parent != "root" then [parent] else [])) }
      else
        nodes_row_walk cols row n child ranks
          { written := st.written ++ [entry_pair n (child, parent, rank)]
            entries := st.entries ++ [(child, parent, rank)]
            trace := st.trace ++
              (child :: (if parent != "root" then [parent] else [])) ++
              (child :: (if parent != "root" then [parent] else [])) }) := by
  conv_lhs => rw [nodes_row_walk]
  rw [h]

lemma row_chain_pairs_nil (cols : List String) (row : List Cell) (n : NCBI)
    (parent : String) : row_chain_pairs cols row n parent [] = [] := rfl

lemma row_chain_pairs_cons_none (cols : List String) (row : List Cell) (n : NCBI)
    (parent rank : String) (ranks : List String)
    (h : dfGet cols row rank = none) :
    row_chain_pairs cols row n parent (rank :: ranks) = [] := by
  unfold row_chain_pairs
  rw [h]

lemma row_chain_pairs_cons_some (cols : List String) (row : List Cell) (n : NCBI)
    (parent rank : String) (ranks : List String) (child : String)
    (h : dfGet cols row rank = some child) :
    row_chain_pairs cols row n parent (rank :: ranks) =
      entry_pair n (child, parent, rank) :: row_chain_pairs cols row n child ranks := by
  conv_lhs => rw [row_chain_pairs]
  rw [h]

lemma nodes_row_walk_inv (cols : List String) (row : List Cell) (n : NCBI) :
    ∀ (ranks : List String) (parent : String) (st : NodesState),
      NodesInv n st → NodesInv n (nodes_row_walk cols row n parent ranks st) := by
  intro ranks
  induction ranks with
  | nil => intro parent st h; exact h
  | cons rank ranks ih =>
    intro parent st h
    cases hcell : dfGet cols row rank with
    | none =>
      rw [nodes_row_walk_cons_none cols row n parent rank ranks st hcell]
      exact h
    | some child =>
      rw [nodes_row_walk_cons_some cols row n parent rank ranks st child hcell]
      by_cases hmem : entry_pair n (child, parent, rank) ∈ st.written
      · rw [if_pos hmem]
        exact ih child _ ⟨h.1, h.2⟩
      · rw [if_neg hmem]
        refine ih child _ ⟨?_, ?_⟩
        · simp only [List.map_append, List.map_cons, List.map_nil]
          rw [h.1]
          rfl
        · have h2 := h.2
          rw [List.nodup_append]
          refine ⟨h2, List.nodup_singleton _, ?_⟩
          intro p hp hq
          simp only [List.mem_singleton] at hq
          subst hq
          exact hmem hp

lemma nodes_run_inv (t : Table) (n : NCBI) : NodesInv n (nodes_run t n) := by
  unfold nodes_run
  have hinit : NodesInv n nodes_init := by
    constructor <;> simp [nodes_init]
  generalize nodes_init = st at hinit ⊢
  induction t.rows generalizing st with
  | nil => exact hinit
  | cons r rs ih =>
    simp only [List.foldl_cons]
    exact ih _ (nodes_row_walk_inv t.cols r n _ _ st hinit)

/-- The nodes walk only appends to the dedup set. -/

lemma nodes_row_walk_written_mono (cols : List String) (row : List Cell) (n : NCBI) :
    ∀ (ranks : List String) (parent : String) (st : NodesState) (p : String × String),
      p ∈ st.written → p ∈ (nodes_row_walk cols row n parent ranks st).written := by
  intro ranks
  induction ranks with
  | nil => intro parent st p hp; exact hp
  | cons rank ranks ih =>
    intro parent st p hp
    cases hcell : dfGet cols row rank with
    | none =>
      rw [nodes_row_walk_cons_none cols row n parent rank ranks st hcell]
      exact hp
    | some child =>
      rw [nodes_row_walk_cons_some cols row n parent rank ranks st child hcell]
      by_cases hmem : entry_pair n (child, parent, rank) ∈ st.written
      · rw [if_pos hmem]
        exact ih child _ p hp
      · rw [if_neg hmem]
        exact ih child _ p (List.mem_append_left _ hp)

/-- Every id pair a record's rank walk produces ends up in the dedup set. -/

lemma nodes_row_walk_chain (cols : List String) (row : List Cell) (n : NCBI) :
    ∀ (ranks : List String) (parent : String) (st : NodesState) (p : String × String),
      p ∈ row_chain_pairs cols row n parent ranks →
      p ∈ (nodes_row_walk cols row n parent ranks st).written := by
  intro ranks
  induction ranks with
  | nil => intro parent st p hp; simp [row_chain_pairs] at hp
  | cons rank ranks ih =>
    intro parent st p hp
    cases hcell : dfGet cols row rank with
    | none =>
      rw [row_chain_pairs_cons_none cols row n parent rank ranks hcell] at hp
      simp at hp
    | some child =>
      rw [row_chain_pairs_cons_some cols row n parent rank ranks child hcell] at hp
      rw [nodes_row_walk_cons_some cols row n parent rank ranks st child hcell]
      rcases List.mem_cons.mp hp with rfl | hrest
      · by_cases hmem : entry_pair n (child, parent, rank) ∈ st.written
        · rw [if_pos hmem]
          exact nodes_row_walk_written_mono cols row n ranks child _ _ hmem
        · rw [if_neg hmem]
          exact nodes_row_walk_written_mono cols row n ranks child _ _
            (List.mem_append_right _ (List.mem_singleton_self _))
      · by_cases hmem : entry_pair n (child, parent, rank) ∈ st.written
        · rw [if_pos hmem]
          exact ih child _ p hrest
        · rw [if_neg hmem]
          exact ih child _ p hrest

lemma nodes_foldl_written_mono (cols : List String) (n : NCBI) :
    ∀ (rows : List (List Cell)) (st : NodesState) (p : String × String),
      p ∈ st.written →
      p ∈ (rows.foldl (fun st row =>
        nodes_row_walk cols row n "root" (available_ranks cols) st) st).written := by
  intro rows
  induction rows with
  | nil => intro st p hp; exact hp
  | cons r rs ih =>
    intro st p hp
    simp only [List.foldl_cons]
    exact ih _ p (nodes_row_walk_written_mono cols r n _ _ st p hp)

lemma nodes_foldl_chain (cols : List String) (n : NCBI) :
    ∀ (rows : List (List Cell)) (st : NodesState) (row : List Cell),
      row ∈ rows →
      ∀ p ∈ row_chain_pairs cols row n "root" (available_ranks cols),
        p ∈ (rows.foldl (fun st row =>
          nodes_row_walk cols row n "root" (available_ranks cols) st) st).written := by
  intro rows
  induction rows with
  | nil => intro st row hrow; simp at hrow
  | cons r rs ih =>
    intro st row hrow p hp
    simp only [List.foldl_cons]
    rcases List.mem_cons.mp hrow with rfl | hmem
    · exact nodes_foldl_written_mono cols n rs _ p
        (nodes_row_walk_chain cols row n _ _ st p hp)
    · exact ih _ row hmem p hp

lemma nodes_run_chain (t : Table) (n : NCBI) (row : List Cell) (hrow : row ∈ t.rows)
    (p : String × String)
    (hp : p ∈ row_chain_pairs t.cols row n "root" (available_ranks t.cols)) :
    p ∈ (nodes_run t n).written :=
  nodes_foldl_chain t.cols n t.rows nodes_init row hrow p hp

/-- C2: in the nodes stream each (child-id, parent-id) pair appears on at
most one line — the pair list of the emitted lines (root entry included) has
no duplicates — and every pair some record's rank walk yields is present,
so a pair produced twice (by two records or two steps) is emitted exactly
once and never re-emitted. -/

theorem C2_no_duplicate_edges (t : Table) (n : NCBI) :
    (nodes_pairs t n).Nodup ∧
    ∀ row ∈ t.rows,
      ∀ p ∈ row_chain_pairs t.cols row n "root" (available_ranks t.cols),
        p ∈ nodes_pairs t n := by
  have hinv := nodes_run_inv t n
  have hpairs : nodes_pairs t n = (nodes_run t n).written := by
    rw [nodes_pairs, hinv.1]
  constructor
  · rw [hpairs]
    exact hinv.2
  · intro row hrow p hp
    rw [hpairs]
    exact nodes_run_chain t n row hrow p hp

/-- Witness for C2: two records sharing the ("A","1") edge; the pair list is
duplicate-free and still contains the shared pair. -/

theorem C2_no_duplicate_edges_witness :
    (nodes_pairs tableAB ncbiNone).Nodup ∧
    ("A", "1") ∈ nodes_pairs tableAB ncbiNone :=
  ⟨(C2_no_duplicate_edges tableAB ncbiNone).1,
   (C2_no_duplicate_edges tableAB ncbiNone).2
     [some "A", some "T"] (by decide) ("A", "1") (by decide)⟩

/-! ### Resolver-call counting for the nodes pass -/

lemma check_tail_length (parent : String) :
    ((if parent != "root" then [parent] else []) : List String).length ≤ 1 := by
  by_cases h : parent != "root" <;> simp [h]

lemma nodes_row_walk_trace (cols : List String) (row : List Cell) (n : NCBI) :
    ∀ (ranks : List String) (parent : String) (st : NodesState),
      (nodes_row_walk cols row n parent ranks st).trace.length ≤
        st.trace.length +
          4 * (ranks.takeWhile (fun rk => (dfGet cols row rk).isSome)).length := by
  intro ranks
  induction ranks with
  | nil => intro parent st; simp [nodes_row_walk_nil]
  | cons rank ranks ih =>
    intro parent st
    cases hcell : dfGet cols row rank with
    | none =>
      rw [nodes_row_walk_cons_none cols row n parent rank ranks st hcell]
      rw [List.takeWhile_cons_of_neg (by simp [hcell])]
      simp
    | some child =>
      rw [nodes_row_walk_cons_some cols row n parent rank ranks st child hcell]
      rw [List.takeWhile_cons_of_pos (by simp [hcell])]
      have hck := check_tail_length parent
      by_cases hmem : entry_pair n (child, parent, rank) ∈ st.written
      · rw [if_pos hmem]
        refine le_trans (ih child _) ?_
        simp only [List.length_append, List.length_cons]
        omega
      · rw [if_neg hmem]
        refine le_trans (ih child _) ?_
        simp only [List.length_append, List.length_cons]
        omega

lemma nodes_foldl_trace (cols : List String) (n : NCBI) :
    ∀ (rows : List (List Cell)) (st : NodesState),
      ((rows.foldl (fun st row =>
        nodes_row_walk cols row n "root" (available_ranks cols) st) st).trace).length ≤
        st.trace.length + 4 * (rows.map (fun row => row_reached cols row)).sum := by
  intro rows
  induction rows with
  | nil => intro st; simp
  | cons r rs ih =>
    intro st
    simp only [List.foldl_cons, List.map_cons, List.sum_cons]
    have h1 := nodes_row_walk_trace cols r n (available_ranks cols) "root" st
    have h2 := ih (nodes_row_walk cols r n "root" (available_ranks cols) st)
    have hr : row_reached cols r =
        ((available_ranks cols).takeWhile (fun rk => (dfGet cols r rk).isSome)).length :=
      rfl
    omega

lemma mapM_length {α β : Type} {f : α → Option β} :
    ∀ {l : List α} {out : List β}, l.mapM f = some out → out.length = l.length := by
  intro l
  induction l with
  | nil =>
    intro out h
    simp only [List.mapM_nil] at h
    injection h with h
    subst h
    rfl
  | cons a l ih =>
    intro out h
    rw [List.mapM_cons] at h
    cases hfa : f a with
    | none => rw [hfa] at h; simp at h
    | some b =>
      rw [hfa] at h
      cases hml : l.mapM f with
      | none => rw [hml] at h; simp at h
      | some bs =>
        rw [hml] at h
        simp only [Option.bind_eq_bind, Option.some_bind, Option.pure_def,
          Option.some_inj] at h
        subst h
        simp [ih hml]

lemma foldlM_length_le {α : Type} (f : List String → α → Option (List String))
    (hf : ∀ acc x out, f acc x = some out → out.length ≤ acc.length + 1) :
    ∀ (l : List α) (acc out : List String),
      l.foldlM f acc = some out → out.length ≤ acc.length + l.length := by
  intro l
  induction l with
  | nil =>
    intro acc out h
    simp only [List.foldlM_nil] at h
    injection h with h
    subst h
    simp
  | cons a l ih =>
    intro acc out h
    rw [List.foldlM_cons] at h
    cases hfa : f acc a with
    | none => rw [hfa] at h; simp at h
    | some acc1 =>
      rw [hfa] at h
      simp only [Option.bind_eq_bind, Option.some_bind] at h
      have h1 := hf acc a acc1 hfa
      have h2 := ih acc1 out h
      simp only [List.length_cons]
      omega

lemma names_row_lines_length (cols : List String) (previous row : List Cell)
    (n : NCBI) (L : List String) (h : names_row_lines cols previous row n = some L) :
    L.length ≤ rank_order.length := by
  unfold names_row_lines at h
  have := foldlM_length_le _ ?_ rank_order [] L h
  · simpa using this
  · intro acc lvl out hstep
    unfold names_step at hstep
    simp only [Option.bind_eq_bind] at hstep
    cases hrc : seriesGet cols row lvl with
    | none => rw [hrc] at hstep; simp at hstep
    | some rc =>
      rw [hrc] at hstep
      simp only [Option.some_bind] at hstep
      cases hpc : seriesGet cols previous lvl with
      | none => rw [hpc] at hstep; simp at hstep
      | some pc =>
        rw [hpc] at hstep
        simp only [Option.some_bind] at hstep
        by_cases hneq : pdNeq rc pc
        · rw [if_pos hneq] at hstep
          cases hwl : names_write_line lvl rc n with
          | none => rw [hwl] at hstep; simp at hstep
          | some l =>
            rw [hwl] at hstep
            simp only [Option.some_bind, Option.pure_def, Option.some_inj] at hstep
            subst hstep
            simp
        · rw [if_neg hneq] at hstep
          simp only [Option.pure_def, Option.some_inj] at hstep
          subst hstep
          simp

lemma names_tail_length (cols : List String) (n : NCBI) :
    ∀ (rows : List (List Cell)) (previous : List Cell) (out : List String),
      names_tail cols n previous rows = some out →
      out.length ≤ rank_order.length * rows.length := by
  intro rows
  induction rows with
  | nil =>
    intro previous out h
    unfold names_tail at h
    injection h with h
    subst h
    simp
  | cons row rows ih =>
    intro previous out h
    unfold names_tail at h
    simp only [Option.bind_eq_bind] at h
    cases hls : names_row_lines cols previous row n with
    | none => rw [hls] at h; simp at h
    | some ls =>
      rw [hls] at h
      simp only [Option.some_bind] at h
      cases hrest : names_tail cols n row rows with
      | none => rw [hrest] at h; simp at h
      | some rest =>
        rw [hrest] at h
        simp only [Option.some_bind, Option.pure_def, Option.some_inj] at h
        subst h
        have h1 := names_row_lines_length cols previous row n ls hls
        have h2 := ih row rest hrest
        simp only [List.length_append, List.length_cons]
        have : rank_order.length * (rows.length + 1) =
            rank_order.length * rows.length + rank_order.length := by ring
        omega

lemma create_names_dump_length (t : Table) (n : NCBI) (L : List String)
    (h : create_names_dump t n = some L) :
    L.length ≤ 1 + rank_order.length * t.rows.length := by
  obtain ⟨cols, rows⟩ := t
  cases rows with
  | nil => rw [create_names_dump_nil] at h; exact Option.noConfusion h
  | cons r0 rest =>
    rw [create_names_dump_cons] at h
    cases hfl : rank_order.mapM (fun level =>
        seriesGet cols r0 level >>= fun c => names_write_line level c n) with
    | none => rw [hfl] at h; simp at h
    | some fl =>
      rw [hfl] at h
      simp only [Option.bind_eq_bind, Option.some_bind] at h
      cases htl : names_tail cols n r0 rest with
      | none => rw [htl] at h; simp at h
      | some tl =>
        rw [htl] at h
        simp only [Option.some_bind, Option.pure_def, Option.some_inj] at h
        subst h
        have h1 : fl.length = rank_order.length := mapM_length hfl
        have h2 := names_tail_length cols n rest r0 tl htl
        simp only [List.length_cons, List.length_append]
        have : rank_order.length * (rest.length + 1) =
            rank_order.length * rest.length + rank_order.length := by ring
        omega

/-- C8, counterexample to the claim as stated: processing the single
occurrence of the name "A" makes the nodes emitter call the resolver twice
(once for the dedup check at source line 98 and once again inside
`write_line` at line 76), so one occurrence causes more than one resolve
call. -/

theorem C8_single_resolution_counterexample :
    nodes_resolve_trace tableK ncbiNone = ["A", "A"] ∧
    (tableK.rows.map (fun r => r.count (some "A"))).sum = 1 := by
  constructor
  · rfl
  · rfl

/-- C8 amended: the names pass resolves once per emitted line, so its
resolver-call count (= number of non-root lines) is bounded by one call per
occurrence (seven occurrences per record); the nodes pass calls the resolver
at most four times per processed occurrence: child and parent once each for
the dedup check, and once more each when a fresh pair is emitted. -/

theorem C8_resolver_call_bounds (t : Table) (n : NCBI) :
    (∀ L, create_names_dump t n = some L →
      L.length ≤ 1 + rank_order.length * t.rows.length) ∧
    (nodes_resolve_trace t n).length ≤ 4 * nodes_occurrences t := by
  constructor
  · intro L h
    exact create_names_dump_length t n L h
  · have h := nodes_foldl_trace t.cols n t.rows nodes_init
    unfold nodes_resolve_trace nodes_run nodes_occurrences
    simpa [nodes_init] using h

/-- Witness for C8 amended, at a concrete one-record table. -/

theorem C8_resolver_call_bounds_witness :
    (8 : Nat) ≤ 1 + rank_order.length * table7.rows.length ∧
    (nodes_resolve_trace table7 ncbiNone).length ≤ 4 * nodes_occurrences table7 :=
  ⟨(C8_resolver_call_bounds table7 ncbiNone).1
      [rootNameLine,
        "A\t|\tk__A\t|\t\t|\tscientific name\n",
        "B\t|\tp__B\t|\t\t|\tscientific name\n",
        "C\t|\tc__C\t|\t\t|\tscientific name\n",
        "D\t|\to__D\t|\t\t|\tscientific name\n",
        "E\t|\tf__E\t|\t\t|\tscientific name\n",
        "F\t|\tg__F\t|\t\t|\tscientific name\n",
        "G\t|\ts__G\t|\t\t|\tscientific name\n"] (by decide),
   (C8_resolver_call_bounds table7 ncbiNone).2⟩

/-! ### Gap truncation (C5) machinery -/

lemma nodes_row_walk_entries_from (cols : List String) (row : List Cell) (n : NCBI) :
    ∀ (ranks : List String) (parent : String) (st : NodesState),
      ∀ e ∈ (nodes_row_walk cols row n parent ranks st).entries,
        e ∈ st.entries ∨
        ((∃ rk ∈ ranks.takeWhile (fun rk => (dfGet cols row rk).isSome),
            dfGet cols row rk = some e.1) ∧
         (e.2.1 = parent ∨
           ∃ rk ∈ ranks.takeWhile (fun rk => (dfGet cols row rk).isSome),
             dfGet cols row rk = some e.2.1) ∧
         e.2.2 ∈ ranks) := by
  intro ranks
  induction ranks with
  | nil =>
    intro parent st e he
    rw [nodes_row_walk_nil] at he
    exact Or.inl he
  | cons rank ranks ih =>
    intro parent st e he
    cases hcell : dfGet cols row rank with
    | none =>
      rw [nodes_row_walk_cons_none cols row n parent rank ranks st hcell] at he
      exact Or.inl he
    | some child =>
      rw [nodes_row_walk_cons_some cols row n parent rank ranks st child hcell] at he
      have htw : (rank :: ranks).takeWhile (fun rk => (dfGet cols row rk).isSome) =
          rank :: ranks.takeWhile (fun rk => (dfGet cols row rk).isSome) :=
        List.takeWhile_cons_of_pos (by simp [hcell])
      have hlift : ∀ (e : String × String × String),
          ((∃ rk ∈ ranks.takeWhile (fun rk => (dfGet cols row rk).isSome),
              dfGet cols row rk = some e.1) ∧
           (e.2.1 = child ∨
             ∃ rk ∈ ranks.takeWhile (fun rk => (dfGet cols row rk).isSome),
               dfGet cols row rk = some e.2.1) ∧
           e.2.2 ∈ ranks) →
          ((∃ rk ∈ (rank :: ranks).takeWhile (fun rk => (dfGet cols row rk).isSome),
              dfGet cols row rk = some e.1) ∧
           (e.2.1 = parent ∨
             ∃ rk ∈ (rank :: ranks).takeWhile (fun rk => (dfGet cols row rk).isSome),
               dfGet cols row rk = some e.2.1) ∧
           e.2.2 ∈ rank :: ranks) := by
        intro e' ⟨⟨rk1, hrk1, hv1⟩, hpar, hrank⟩
        rw [htw]
        refine ⟨⟨rk1, List.mem_cons_of_mem _ hrk1, hv1⟩, ?_, List.mem_cons_of_mem _ hrank⟩
        rcases hpar with hpc | ⟨rk2, hrk2, hv2⟩
        · exact Or.inr ⟨rank, List.mem_cons_self _ _, by rw [hcell, hpc]⟩
        · exact Or.inr ⟨rk2, List.mem_cons_of_mem _ hrk2, hv2⟩
      by_cases hmem : entry_pair n (child, parent, rank) ∈ st.written
      · rw [if_pos hmem] at he
        rcases ih child _ e he with hold | hnew
        · exact Or.inl hold
        · exact Or.inr (hlift e hnew)
      · rw [if_neg hmem] at he
        rcases ih child _ e he with hold | hnew
        · rcases List.mem_append.mp hold with hold2 | hsing
          · exact Or.inl hold2
          · simp only [List.mem_singleton] at hsing
            subst hsing
            refine Or.inr ?_
            rw [htw]
            exact ⟨⟨rank, List.mem_cons_self _ _, by rw [hcell]⟩,
              Or.inl rfl, List.mem_cons_self _ _⟩
        · exact Or.inr (hlift e hnew)

lemma mapM_isSome_of_mem {α β : Type} {f : α → Option β} :
    ∀ {l : List α} {out : List β}, l.mapM f = some out →
      ∀ {x : α}, x ∈ l → ∃ y, f x = some y := by
  intro l
  induction l with
  | nil => intro out _ x hx; simp at hx
  | cons a l ih =>
    intro out h x hx
    rw [List.mapM_cons] at h
    cases hfa : f a with
    | none => rw [hfa] at h; simp at h
    | some b =>
      rw [hfa] at h
      cases hml : l.mapM f with
      | none => rw [hml] at h; simp at h
      | some bs =>
        rcases List.mem_cons.mp hx with rfl | hmem
        · exact ⟨b, hfa⟩
        · exact ih hml hmem

lemma foldlM_forall_of_some {α β : Type} {f : β → α → Option β} :
    ∀ {l : List α} {acc out : β}, l.foldlM f acc = some out →
      ∀ {x : α}, x ∈ l → ∃ acc2 out2, f acc2 x = some out2 := by
  intro l
  induction l with
  | nil => intro acc out _ x hx; simp at hx
  | cons a l ih =>
    intro acc out h x hx
    rw [List.foldlM_cons] at h
    cases hfa : f acc a with
    | none => rw [hfa] at h; simp at h
    | some acc1 =>
      rw [hfa] at h
      simp only [Option.bind_eq_bind, Option.some_bind] at h
      rcases List.mem_cons.mp hx with rfl | hmem
      · exact ⟨acc, acc1, hfa⟩
      · exact ih h hmem

lemma names_row_lines_complete {cols : List String} {previous row : List Cell}
    {n : NCBI} {out : List String}
    (h : names_row_lines cols previous row n = some out) :
    ∀ lvl ∈ rank_order, ∃ v, seriesGet cols row lvl = some (some v) := by
  intro lvl hlvl
  unfold names_row_lines at h
  obtain ⟨acc, out2, hstep⟩ := foldlM_forall_of_some h hlvl
  unfold names_step at hstep
  simp only [Option.bind_eq_bind] at hstep
  cases hrc : seriesGet cols row lvl with
  | none =>
    rw [hrc] at hstep
    simp at hstep
  | some rc =>
    rw [hrc] at hstep
    simp only [Option.some_bind] at hstep
    cases rc with
    | some v => exact ⟨v, rfl⟩
    | none =>
      exfalso
      cases hpc : seriesGet cols previous lvl with
      | none =>
        rw [hpc] at hstep
        simp at hstep
      | some pc =>
        rw [hpc] at hstep
        simp only [Option.some_bind] at hstep
        have hneq : pdNeq none pc = true := by
          cases pc <;> rfl
        rw [if_pos hneq] at hstep
        have hwl : names_write_line lvl none n = none := rfl
        rw [hwl] at hstep
        simp at hstep

lemma names_tail_complete {cols : List String} {n : NCBI} :
    ∀ {rows : List (List Cell)} {previous : List Cell} {out : List String},
      names_tail cols n previous rows = some out →
      ∀ row ∈ rows, ∀ lvl ∈ rank_order, ∃ v, seriesGet cols row lvl = some (some v) := by
  intro rows
  induction rows with
  | nil => intro previous out _ row hrow; simp at hrow
  | cons row0 rows ih =>
    intro previous out h row hrow
    unfold names_tail at h
    simp only [Option.bind_eq_bind] at h
    cases hls : names_row_lines cols previous row0 n with
    | none => rw [hls] at h; simp at h
    | some ls =>
      rw [hls] at h
      simp only [Option.some_bind] at h
      cases hrest : names_tail cols n row0 rows with
      | none => rw [hrest] at h; simp at h
      | some rest =>
        rcases List.mem_cons.mp hrow with rfl | hmem
        · exact names_row_lines_complete hls
        · exact ih hrest row hmem

/-- Whenever the names stream is produced at all, every record holds an
actual string at every one of the seven rank columns: the table is complete
with respect to the rank vocabulary. -/

lemma create_names_dump_complete {t : Table} {n : NCBI} {L : List String}
    (h : create_names_dump t n = some L) :
    ∀ row ∈ t.rows, ∀ lvl ∈ rank_order, ∃ v, seriesGet t.cols row lvl = some (some v) := by
  obtain ⟨cols, rows⟩ := t
  cases rows with
  | nil => rw [create_names_dump_nil] at h; exact Option.noConfusion h
  | cons r0 rest =>
    rw [create_names_dump_cons] at h
    cases hfl : rank_order.mapM (fun level =>
        seriesGet cols r0 level >>= fun c => names_write_line level c n) with
    | none => rw [hfl] at h; simp at h
    | some fl =>
      rw [hfl] at h
      simp only [Option.bind_eq_bind, Option.some_bind] at h
      cases htl : names_tail cols n r0 rest with
      | none => rw [htl] at h; simp at h
      | some tl =>
        intro row hrow lvl hlvl
        rcases List.mem_cons.mp hrow with rfl | hmem
        · obtain ⟨y, hy⟩ := mapM_isSome_of_mem hfl hlvl
          cases hrc : seriesGet cols row lvl with
          | none => rw [hrc] at hy; simp at hy
          | some c =>
            rw [hrc] at hy
            cases c with
            | some v => exact ⟨v, rfl⟩
            | none =>
              exfalso
              have : names_write_line lvl none n = none := rfl
              rw [show ((some (none : Cell) >>= fun c =>
                names_write_line lvl c n) = names_write_line lvl none n) from rfl,
                this] at hy
              exact Option.noConfusion hy
        · exact names_tail_complete htl row hmem lvl hlvl

/-- A record with a missing value at any rank column makes the names emitter
raise: the NaN is always compared unequal to the predecessor (or sits in the
always-written first record), reaches the resolver, and the collaborator
raises, so no names stream is produced at all. -/

lemma names_none_of_gap (t : Table) (n : NCBI) (row : List Cell)
    (hrow : row ∈ t.rows) (lvl : String) (hlvl : lvl ∈ rank_order)
    (hgap : seriesGet t.cols row lvl = some none) :
    create_names_dump t n = none := by
  cases hdump : create_names_dump t n with
  | none => rfl
  | some L =>
    obtain ⟨v, hv⟩ := create_names_dump_complete hdump row hrow lvl hlvl
    rw [hgap] at hv
    exact Option.noConfusion (Option.some.inj hv)

/-- C5: gap truncation.  For a record whose rank chain has a gap (a missing
value at a higher-precedence rank, a value B strictly below the gap, B not
also occurring before the gap and not the root label), the nodes walk emits
no line with B as child or parent on behalf of that record; and the names
emitter never emits any line for a table containing such a record, because
the missing cell reaches the resolver and the collaborator raises. -/

theorem C5_gap_truncation (t : Table) (n : NCBI) :
    (∀ (row : List Cell), row ∈ t.rows →
      ∀ (i j : Nat) (rkGap rkB B : String),
        (available_ranks t.cols)[i]? = some rkGap →
        (available_ranks t.cols)[j]? = some rkB →
        i < j →
        dfGet t.cols row rkGap = none →
        dfGet t.cols row rkB = some B →
        B ≠ "root" →
        (∀ rk ∈ (available_ranks t.cols).takeWhile
            (fun rk => (dfGet t.cols row rk).isSome),
          dfGet t.cols row rk ≠ some B) →
        ∀ (st : NodesState) (e : String × String × String),
          e ∈ (nodes_row_walk t.cols row n "root" (available_ranks t.cols) st).entries →
          e ∈ st.entries ∨ (e.1 ≠ B ∧ e.2.1 ≠ B)) ∧
    (∀ (row : List Cell), row ∈ t.rows →
      ∀ lvl ∈ rank_order, seriesGet t.cols row lvl = some none →
      create_names_dump t n = none) := by
  constructor
  · intro row _ i j rkGap rkB B _ _ _ _ _ hBroot hBpre st e he
    rcases nodes_row_walk_entries_from t.cols row n (available_ranks t.cols)
      "root" st e he with hold | ⟨⟨rk1, hrk1, hv1⟩, hpar, _⟩
    · exact Or.inl hold
    · refine Or.inr ⟨?_, ?_⟩
      · intro hB
        exact hBpre rk1 hrk1 (by rw [hv1, hB])
      · rcases hpar with hroot | ⟨rk2, hrk2, hv2⟩
        · intro hB
          rw [hroot] at hB
          exact hBroot hB.symm
        · intro hB
          exact hBpre rk2 hrk2 (by rw [hv2, hB])
  · intro row hrow lvl hlvl hgap
    exact names_none_of_gap t n row hrow lvl hlvl hgap

/-- Witness for C5 at the concrete gap record. -/

theorem C5_gap_truncation_witness :
    (("A", "root", "kingdom") ∈ nodes_init.entries ∨
      (("A" : String) ≠ "B" ∧ ("root" : String) ≠ "B")) ∧
    create_names_dump tableGap ncbiNone = none :=
  ⟨(C5_gap_truncation tableGap ncbiNone).1
      [some "A", none, some "B", none, none, none, none] (by decide)
      1 2 "phylum" "class" "B" (by decide) (by decide) (by decide) (by decide)
      (by decide) (by decide) (by decide) nodes_init ("A", "root", "kingdom")
      (by decide),
   (C5_gap_truncation tableGap ncbiNone).2
      [some "A", none, some "B", none, none, none, none] (by decide)
      "phylum" (by decide) (by decide)⟩

lemma rows_complete_spec {t : Table} (h : rows_complete t = true) :
    ∀ row ∈ t.rows, ∀ lvl ∈ rank_order,
      ∃ v, seriesGet t.cols row lvl = some (some v) := by
  unfold rows_complete at h
  rw [List.all_eq_true] at h
  intro row hrow lvl hlvl
  have h2 := h row hrow
  rw [List.all_eq_true] at h2
  have h3 := h2 lvl hlvl
  cases hs : seriesGet t.cols row lvl with
  | none => rw [hs] at h3; simp at h3
  | some c =>
    cases c with
    | none => rw [hs] at h3; simp at h3
    | some v => exact ⟨v, rfl⟩

lemma dfGet_of_seriesGet {cols : List String} {row : List Cell} {lvl : String}
    {c : Cell} (h : seriesGet cols row lvl = some c) : dfGet cols row lvl = c := by
  unfold dfGet
  rw [h]
  rfl

lemma mapM_eq_filterMap {α β : Type} {f : α → Option β} :
    ∀ {l : List α}, (∀ x ∈ l, ∃ y, f x = some y) →
      l.mapM f = some (l.filterMap f) := by
  intro l
  induction l with
  | nil => intro _; rfl
  | cons a l ih =>
    intro h
    obtain ⟨y, hy⟩ := h a (List.mem_cons_self _ _)
    rw [List.mapM_cons, hy, ih (fun x hx => h x (List.mem_cons_of_mem _ hx)),
      List.filterMap_cons, hy]
    rfl

lemma names_step_eq (cols : List String) (prev row : List Cell) (n : NCBI)
    (acc : List String) (lvl : String) {v : String} {c : Cell}
    (hv : seriesGet cols row lvl = some (some v))
    (hw : seriesGet cols prev lvl = some c) :
    names_step cols prev row n acc lvl =
      if pdNeq (some v) c then some (acc ++ [names_line lvl v n]) else some acc := by
  unfold names_step
  rw [hv, hw]
  by_cases hneq : pdNeq (some v) c
  · rw [if_pos hneq]
    simp only [Option.bind_eq_bind, Option.some_bind, if_pos hneq]
    rfl
  · rw [if_neg hneq]
    simp only [Option.bind_eq_bind, Option.some_bind, if_neg hneq]
    rfl

lemma names_row_lines_eq (cols : List String) (prev row : List Cell) (n : NCBI)
    (hrow : ∀ lvl ∈ rank_order, ∃ v, seriesGet cols row lvl = some (some v))
    (hprev : ∀ lvl ∈ rank_order, ∃ v, seriesGet cols prev lvl = some (some v)) :
    names_row_lines cols prev row n = some (names_chunk cols prev row n) := by
  unfold names_row_lines names_chunk
  suffices hgen : ∀ (lvls : List String),
      (∀ lvl ∈ lvls, ∃ v, seriesGet cols row lvl = some (some v)) →
      (∀ lvl ∈ lvls, ∃ v, seriesGet cols prev lvl = some (some v)) →
      ∀ (acc : List String),
        lvls.foldlM (names_step cols prev row n) acc =
        some (acc ++ lvls.filterMap (fun lvl =>
          if pdNeq (dfGet cols row lvl) (dfGet cols prev lvl) then
            names_write_line lvl (dfGet cols row lvl) n
          else none)) by
    have := hgen rank_order hrow hprev []
    simpa using this
  intro lvls
  induction lvls with
  | nil => intro _ _ acc; simp
  | cons lvl lvls ih =>
    intro h1 h2 acc
    obtain ⟨v, hv⟩ := h1 lvl (List.mem_cons_self _ _)
    obtain ⟨w, hw⟩ := h2 lvl (List.mem_cons_self _ _)
    have hdr : dfGet cols row lvl = some v := dfGet_of_seriesGet hv
    have hdp : dfGet cols prev lvl = some w := dfGet_of_seriesGet hw
    rw [List.foldlM_cons, names_step_eq cols prev row n acc lvl hv hw]
    rw [List.filterMap_cons, hdr, hdp]
    have hih := ih (fun x hx => h1 x (List.mem_cons_of_mem _ hx))
      (fun x hx => h2 x (List.mem_cons_of_mem _ hx))
    by_cases hneq : pdNeq (some v) (some w)
    · rw [if_pos hneq, if_pos hneq]
      simp only [Option.bind_eq_bind, Option.some_bind]
      rw [hih (acc ++ [names_line lvl v n])]
      have hwl : names_write_line lvl (some v) n = some (names_line lvl v n) := rfl
      rw [hwl]
      simp
    · rw [if_neg hneq, if_neg hneq]
      simp only [Option.bind_eq_bind, Option.some_bind]
      rw [hih acc]

lemma names_tail_eq (cols : List String) (n : NCBI) :
    ∀ (rows : List (List Cell)) (prev : List Cell),
      (∀ lvl ∈ rank_order, ∃ v, seriesGet cols prev lvl = some (some v)) →
      (∀ row ∈ rows, ∀ lvl ∈ rank_order, ∃ v, seriesGet cols row lvl = some (some v)) →
      names_tail cols n prev rows = some (names_chunks cols prev rows n) := by
  intro rows
  induction rows with
  | nil => intro prev _ _; rfl
  | cons row rows ih =>
    intro prev hprev hall
    have hrow := hall row (List.mem_cons_self _ _)
    unfold names_tail
    rw [names_row_lines_eq cols prev row n hrow hprev]
    simp only [Option.bind_eq_bind, Option.some_bind]
    rw [ih row hrow (fun r hr => hall r (List.mem_cons_of_mem _ hr))]
    simp only [Option.some_bind, Option.pure_def]
    unfold names_chunks
    rw [List.zip_cons_cons, List.flatMap_cons]

/-- Full characterization of the names stream on a complete table: the root
line, then one line per rank for the first record, then, for every
subsequent record in table order, one line per rank column whose value
differs from the immediately preceding record's value at that column. -/

lemma create_names_dump_eq (t : Table) (n : NCBI) (r0 : List Cell)
    (rest : List (List Cell)) (hrows : t.rows = r0 :: rest)
    (hcomp : rows_complete t = true) :
    create_names_dump t n =
      some (rootNameLine ::
        (names_first_chunk t.cols r0 n ++ names_chunks t.cols r0 rest n)) := by
  have hall := rows_complete_spec hcomp
  rw [hrows] at hall
  have hr0 := hall r0 (List.mem_cons_self _ _)
  obtain ⟨cols, rows⟩ := t
  simp only at hrows hall hr0 ⊢
  subst hrows
  rw [create_names_dump_cons]
  have hfirst : rank_order.mapM (fun level =>
      seriesGet cols r0 level >>= fun c => names_write_line level c n) =
      some (names_first_chunk cols r0 n) := by
    rw [mapM_eq_filterMap (fun lvl hlvl => ?_)]
    · unfold names_first_chunk
      congr 1
      apply List.filterMap_congr
      intro lvl hlvl
      obtain ⟨v, hv⟩ := hr0 lvl hlvl
      rw [hv, dfGet_of_seriesGet hv]
      rfl
    · obtain ⟨v, hv⟩ := hr0 lvl hlvl
      rw [hv]
      exact ⟨names_line lvl v n, rfl⟩
  rw [hfirst]
  simp only [Option.bind_eq_bind, Option.some_bind]
  rw [names_tail_eq cols n rest r0 hr0
    (fun r hr => hall r (List.mem_cons_of_mem _ hr))]
  simp

/-! ### Line-shape lemmas -/

/-- A names line whose taxon is not literally "root" contains the "__" rank
prefix separator and therefore cannot be the root name line. -/

lemma names_line_ne_rootNameLine (lvl v : String) (n : NCBI) (hv : v ≠ "root") :
    names_line lvl v n ≠ rootNameLine := by
  intro heq
  have hnl : names_line lvl v n =
      (getTaxIDFromNCBI v n ++ "\t|\t") ++
        ((lvl.take 1 ++ "__" ++ v) ++ "\t|\t\t|\tscientific name\n") := by
    unfold names_line
    rw [if_pos (by simpa using hv : (v != "root") = true)]
  rw [hnl] at heq
  have hd := congrArg (fun s => s.data.count '_') heq
  simp only [String.data_append, List.count_append] at hd
  have h0 : rootNameLine.data.count '_' = 0 := by decide
  have h2 : List.count '_' (['_', '_'] : List Char) = 2 := by decide
  rw [h0] at hd
  omega

/-- Generic suffix-mismatch criterion for string inequality. -/

lemma append_ne_of_suffix_ne (a s r : String)
    (hlen : s.data.length ≤ r.data.length)
    (h : ¬ (s.data = r.data.drop (r.data.length - s.data.length))) :
    a ++ s ≠ r := by
  intro heq
  have hd := congrArg String.data heq
  rw [String.data_append] at hd
  have hlen2 : a.data.length + s.data.length = r.data.length := by
    have := congrArg List.length hd
    simpa [List.length_append] using this
  have hr : r.data =
      r.data.take (r.data.length - s.data.length) ++
        r.data.drop (r.data.length - s.data.length) :=
    (List.take_append_drop _ _).symm
  rw [hr] at hd
  have hinj := List.append_inj' hd (by rw [List.length_drop]; omega)
  exact h hinj.2

/-- A nodes line carrying one of the seven fixed ranks ends in that rank's
name, not in "no rank", so it cannot be the root node line. -/

lemma nodes_write_line_ne_rootNodeLine (c p rk : String) (n : NCBI)
    (hrk : rk ∈ rank_order) :
    nodes_write_line c p rk n ≠ rootNodeLine := by
  have hform : nodes_write_line c p rk n =
      ((entry_pair n (c, p, rk)).1 ++ "\t|\t" ++ (entry_pair n (c, p, rk)).2 ++
        "\t|\t") ++ ((if rk != "" then pyLower rk else "no rank") ++ "\t|\n") := by
    simp only [nodes_write_line, String.append_assoc]
  rw [hform]
  fin_cases hrk
  · exact append_ne_of_suffix_ne _ _ _ (by decide) (by decide)
  · exact append_ne_of_suffix_ne _ _ _ (by decide) (by decide)
  · exact append_ne_of_suffix_ne _ _ _ (by decide) (by decide)
  · exact append_ne_of_suffix_ne _ _ _ (by decide) (by decide)
  · exact append_ne_of_suffix_ne _ _ _ (by decide) (by decide)
  · exact append_ne_of_suffix_ne _ _ _ (by decide) (by decide)
  · exact append_ne_of_suffix_ne _ _ _ (by decide) (by decide)

/-! ### Entry-field description of the nodes stream -/

lemma nodes_foldl_entries_fields (cols : List String) (n : NCBI) :
    ∀ (rows : List (List Cell)) (st : NodesState),
      ∀ e ∈ ((rows.foldl (fun st row =>
          nodes_row_walk cols row n "root" (available_ranks cols) st) st).entries),
        e ∈ st.entries ∨
        ∃ row ∈ rows,
          ((∃ rk ∈ available_ranks cols, dfGet cols row rk = some e.1) ∧
           (e.2.1 = "root" ∨
             ∃ rk ∈ available_ranks cols, dfGet cols row rk = some e.2.1) ∧
           e.2.2 ∈ available_ranks cols) := by
  intro rows
  induction rows with
  | nil => intro st e he; exact Or.inl he
  | cons r rs ih =>
    intro st e he
    simp only [List.foldl_cons] at he
    rcases ih _ e he with hold | ⟨row, hrow, hrest⟩
    · rcases nodes_row_walk_entries_from cols r n (available_ranks cols)
        "root" st e hold with hst | ⟨⟨rk1, hrk1, hv1⟩, hpar, hrank⟩
      · exact Or.inl hst
      · refine Or.inr ⟨r, List.mem_cons_self _ _, ?_⟩
        have hsub : (available_ranks cols).takeWhile
            (fun rk => (dfGet cols r rk).isSome) ⊆ available_ranks cols :=
          (List.takeWhile_sublist _).subset
        refine ⟨⟨rk1, hsub hrk1, hv1⟩, ?_, hrank⟩
        rcases hpar with hroot | ⟨rk2, hrk2, hv2⟩
        · exact Or.inl hroot
        · exact Or.inr ⟨rk2, hsub hrk2, hv2⟩
    · exact Or.inr ⟨row, List.mem_cons_of_mem _ hrow, hrest⟩

lemma nodes_run_entries_fields (t : Table) (n : NCBI) :
    ∀ e ∈ (nodes_run t n).entries,
      ∃ row ∈ t.rows,
        ((∃ rk ∈ available_ranks t.cols, dfGet t.cols row rk = some e.1) ∧
         (e.2.1 = "root" ∨
           ∃ rk ∈ available_ranks t.cols, dfGet t.cols row rk = some e.2.1) ∧
         e.2.2 ∈ available_ranks t.cols) := by
  intro e he
  rcases nodes_foldl_entries_fields t.cols n t.rows nodes_init e he with h0 | hfound
  · simp [nodes_init] at h0
  · exact hfound

lemma seriesGet_of_dfGet {cols : List String} {row : List Cell} {lvl : String}
    {v : String} (h : dfGet cols row lvl = some v) :
    seriesGet cols row lvl = some (some v) := by
  unfold dfGet at h
  cases hs : seriesGet cols row lvl with
  | none => rw [hs] at h; exact Option.noConfusion h
  | some c => rw [hs] at h; simp at h; rw [h]

lemma mem_of_dfGet {cols : List String} {row : List Cell} {lvl : String}
    {v : String} (h : dfGet cols row lvl = some v) : (some v : Cell) ∈ row := by
  have hs := seriesGet_of_dfGet h
  unfold seriesGet at hs
  cases hidx : cols.indexOf? lvl with
  | none => rw [hidx] at hs; exact Option.noConfusion hs
  | some i =>
    rw [hidx] at hs
    exact List.getElem?_mem hs

/-! ### Coverage of the names stream -/

lemma pdNeq_false_eq {a b : Cell} (h : pdNeq a b = false) : a = b := by
  cases a with
  | none => simp [pdNeq] at h
  | some x =>
    cases b with
    | none => simp [pdNeq] at h
    | some y =>
      simp only [pdNeq, bne_eq_false_iff_eq] at h
      rw [h]

lemma mem_first_chunk {cols : List String} {r0 : List Cell} {n : NCBI}
    {lvl v : String} (hlvl : lvl ∈ rank_order)
    (hv : dfGet cols r0 lvl = some v) :
    names_line lvl v n ∈ names_first_chunk cols r0 n :=
  List.mem_filterMap.mpr ⟨lvl, hlvl, by rw [hv]; rfl⟩

lemma chunk_absorb (cols : List String) (r0 r1 : List Cell) (n : NCBI) :
    ∀ l ∈ names_first_chunk cols r1 n,
      l ∈ names_first_chunk cols r0 n ++ names_chunk cols r0 r1 n := by
  intro l hl
  obtain ⟨lvl, hlvl, hw⟩ := List.mem_filterMap.mp hl
  by_cases hneq : pdNeq (dfGet cols r1 lvl) (dfGet cols r0 lvl)
  · refine List.mem_append_right _ (List.mem_filterMap.mpr ⟨lvl, hlvl, ?_⟩)
    rw [if_pos hneq]
    exact hw
  · have heq : dfGet cols r1 lvl = dfGet cols r0 lvl :=
      pdNeq_false_eq (Bool.not_eq_true _ ▸ hneq)
    refine List.mem_append_left _ (List.mem_filterMap.mpr ⟨lvl, hlvl, ?_⟩)
    rw [← heq]
    exact hw

lemma names_coverage (cols : List String) (n : NCBI) :
    ∀ (rest : List (List Cell)) (r0 : List Cell),
      ∀ r ∈ r0 :: rest, ∀ lvl ∈ rank_order, ∀ v : String,
        seriesGet cols r lvl = some (some v) →
        names_line lvl v n ∈
          names_first_chunk cols r0 n ++ names_chunks cols r0 rest n := by
  intro rest
  induction rest with
  | nil =>
    intro r0 r hr lvl hlvl v hv
    rcases List.mem_cons.mp hr with rfl | hmem
    · exact List.mem_append_left _
        (mem_first_chunk hlvl (dfGet_of_seriesGet hv))
    · simp at hmem
  | cons r1 rest ih =>
    intro r0 r hr lvl hlvl v hv
    have hchunks : names_chunks cols r0 (r1 :: rest) n =
        names_chunk cols r0 r1 n ++ names_chunks cols r1 rest n := by
      unfold names_chunks
      rw [List.zip_cons_cons, List.flatMap_cons]
    rw [hchunks]
    rcases List.mem_cons.mp hr with rfl | hmem
    · exact List.mem_append_left _
        (mem_first_chunk hlvl (dfGet_of_seriesGet hv))
    · have hrec := ih r1 r hmem lvl hlvl v hv
      rcases List.mem_append.mp hrec with hfirst | hchunksmem
      · rcases List.mem_append.mp (chunk_absorb cols r0 r1 n _ hfirst) with h1 | h2
        · exact List.mem_append_left _ h1
        · exact List.mem_append_right _ (List.mem_append_left _ h2)
      · exact List.mem_append_right _ (List.mem_append_right _ hchunksmem)

lemma line_has_id_names_line (lvl v : String) (n : NCBI) :
    line_has_id (getTaxIDFromNCBI v n) (names_line lvl v n) = true := by
  unfold line_has_id names_line
  rw [String.data_append, List.isPrefixOf_iff_prefix]
  exact List.prefix_append _ _

/-! ## Claim theorems for the names stream -/

/-- C4: on a complete table the names stream is exactly the root line, the
first record's per-rank lines (`names_first_chunk`), then for every
subsequent record taken in table order and each rank column in fixed rank
order a line precisely when the record's value differs (pandas `!=`) from
the immediately preceding record's value at that column (`names_chunk`);
the subsequent-record part depends only on adjacent row pairs (the zip in
`names_chunks`), so no dedup against non-adjacent rows ever occurs. -/

theorem C4_adjacent_predecessor_dedup (t : Table) (n : NCBI) (r0 : List Cell)
    (rest : List (List Cell)) (hrows : t.rows = r0 :: rest)
    (hcomp : rows_complete t = true) :
    create_names_dump t n =
      some (rootNameLine ::
        (names_first_chunk t.cols r0 n ++ names_chunks t.cols r0 rest n)) :=
  create_names_dump_eq t n r0 rest hrows hcomp

/-- Witness for C4 at a concrete table (the third record re-emits species
"S" because only its immediate predecessor, holding "T", is consulted). -/

theorem C4_adjacent_predecessor_dedup_witness :
    create_names_dump tableC4 ncbiNone =
      some (rootNameLine ::
        (names_first_chunk tableC4.cols
          [some "A", some "B", some "C", some "D", some "E", some "F", some "S"]
          ncbiNone ++
        names_chunks tableC4.cols
          [some "A", some "B", some "C", some "D", some "E", some "F", some "S"]
          [[some "A", some "B", some "C", some "D", some "E", some "F", some "T"],
            [some "A", some "B", some "C", some "D", some "E", some "F", some "S"]]
          ncbiNone)) :=
  C4_adjacent_predecessor_dedup tableC4 ncbiNone _ _ rfl (by decide)

lemma names_body_ne_root (t : Table) (n : NCBI) (r0 : List Cell)
    (rest : List (List Cell)) (hrows : t.rows = r0 :: rest)
    (hnoroot : ∀ row ∈ t.rows, ∀ c ∈ row, c ≠ some "root") :
    ∀ l ∈ names_first_chunk t.cols r0 n ++ names_chunks t.cols r0 rest n,
      l ≠ rootNameLine := by
  have hr0mem : r0 ∈ t.rows := by rw [hrows]; exact List.mem_cons_self _ _
  intro l hl
  rcases List.mem_append.mp hl with hfirst | hchunks
  · obtain ⟨lvl, _, hw⟩ := List.mem_filterMap.mp hfirst
    cases hdg : dfGet t.cols r0 lvl with
    | none => rw [hdg] at hw; exact Option.noConfusion hw
    | some v =>
      rw [hdg] at hw
      have hlv : l = names_line lvl v n := by
        have : names_write_line lvl (some v) n = some (names_line lvl v n) := rfl
        rw [this] at hw
        exact (Option.some.inj hw).symm
      subst hlv
      have hvne : v ≠ "root" := by
        intro hveq
        subst hveq
        exact hnoroot r0 hr0mem (some "root") (mem_of_dfGet hdg) rfl
      exact names_line_ne_rootNameLine lvl v n hvne
  · obtain ⟨pr, hpr, hmem⟩ := List.mem_flatMap.mp hchunks
    obtain ⟨lvl, _, hw⟩ := List.mem_filterMap.mp hmem
    by_cases hneq : pdNeq (dfGet t.cols pr.2 lvl) (dfGet t.cols pr.1 lvl)
    · rw [if_pos hneq] at hw
      cases hdg : dfGet t.cols pr.2 lvl with
      | none => rw [hdg] at hw; exact Option.noConfusion hw
      | some v =>
        rw [hdg] at hw
        have hlv : l = names_line lvl v n := by
          have : names_write_line lvl (some v) n = some (names_line lvl v n) := rfl
          rw [this] at hw
          exact (Option.some.inj hw).symm
        subst hlv
        have hprmem : pr.2 ∈ t.rows := by
          rw [hrows]
          exact List.mem_cons_of_mem _ (List.of_mem_zip hpr).2
        have hvne : v ≠ "root" := by
          intro hveq
          subst hveq
          exact hnoroot pr.2 hprmem (some "root") (mem_of_dfGet hdg) rfl
        exact names_line_ne_rootNameLine lvl v n hvne
    · rw [if_neg hneq] at hw
      exact Option.noConfusion hw

/-- C3 amended: the nodes stream always begins with the root node line and
contains it exactly once; the names stream, whenever it is produced at all
(non-empty complete table) and no cell holds the literal name "root",
begins with the root name line and contains it exactly once.  (The original
claim fails on an empty table, where the names emitter raises, and on a
record literally named "root" resolving to id 1, which duplicates the root
name line; see the counterexample.) -/

theorem C3_root_emitted_first (t : Table) (n : NCBI) :
    ((create_nodes_dump t n).head? = some rootNodeLine ∧
     (create_nodes_dump t n).count rootNodeLine = 1) ∧
    (∀ (r0 : List Cell) (rest : List (List Cell)),
      t.rows = r0 :: rest → rows_complete t = true →
      (∀ row ∈ t.rows, ∀ c ∈ row, c ≠ some "root") →
      ∃ L, create_names_dump t n = some L ∧
        L.head? = some rootNameLine ∧ L.count rootNameLine = 1) := by
  constructor
  · constructor
    · rfl
    · unfold create_nodes_dump
      rw [List.count_cons_self]
      have hzero : ((nodes_run t n).entries.map
          (fun e => nodes_write_line e.1 e.2.1 e.2.2 n)).count rootNodeLine = 0 := by
        rw [List.count_eq_zero]
        intro hmem
        obtain ⟨e, he, heq⟩ := List.mem_map.mp hmem
        obtain ⟨row, _, _, _, hrank⟩ := nodes_run_entries_fields t n e he
        exact nodes_write_line_ne_rootNodeLine e.1 e.2.1 e.2.2 n
          (List.mem_filter.mp hrank).1 heq
      rw [hzero]
  · intro r0 rest hrows hcomp hnoroot
    refine ⟨_, create_names_dump_eq t n r0 rest hrows hcomp, rfl, ?_⟩
    rw [List.count_cons_self]
    have hzero : (names_first_chunk t.cols r0 n ++
        names_chunks t.cols r0 rest n).count rootNameLine = 0 := by
      rw [List.count_eq_zero]
      intro hmem
      exact names_body_ne_root t n r0 rest hrows hnoroot rootNameLine hmem rfl
    rw [hzero]

/-- C3, counterexample to the claim as stated: on an empty table the names
emitter raises instead of emitting the root line, and on a record literally
named "root" (resolver mapping it to id 1, as NCBI does) the root name line
appears twice in the names stream. -/

theorem C3_root_emitted_first_counterexample :
    create_names_dump { cols := rank_order, rows := [] } ncbiNone = none ∧
    ((create_names_dump tableRootCell ncbiRoot).getD []).count rootNameLine = 2 := by
  constructor
  · rfl
  · decide

/-- Witness for C3 amended at a concrete complete table. -/

theorem C3_root_emitted_first_witness :
    ((create_nodes_dump table7 ncbiNone).head? = some rootNodeLine ∧
     (create_nodes_dump table7 ncbiNone).count rootNodeLine = 1) ∧
    (∃ L, create_names_dump table7 ncbiNone = some L ∧
      L.head? = some rootNameLine ∧ L.count rootNameLine = 1) :=
  ⟨(C3_root_emitted_first table7 ncbiNone).1,
   (C3_root_emitted_first table7 ncbiNone).2 _ _ rfl (by decide) (by decide)⟩

lemma nodes_pairs_components (t : Table) (n : NCBI) :
    ∀ pr ∈ nodes_pairs t n,
      (pr.1 = "1" ∨ ∃ row ∈ t.rows, ∃ lvl ∈ available_ranks t.cols, ∃ v,
          dfGet t.cols row lvl = some v ∧ pr.1 = getTaxIDFromNCBI v n) ∧
      (pr.2 = "1" ∨ ∃ row ∈ t.rows, ∃ lvl ∈ available_ranks t.cols, ∃ v,
          dfGet t.cols row lvl = some v ∧ pr.2 = getTaxIDFromNCBI v n) := by
  intro pr hpr
  unfold nodes_pairs at hpr
  rcases List.mem_cons.mp hpr with rfl | hmem
  · exact ⟨Or.inl rfl, Or.inl rfl⟩
  · obtain ⟨e, he, heq⟩ := List.mem_map.mp hmem
    obtain ⟨row, hrow, ⟨rk1, hrk1, hv1⟩, hpar, _⟩ := nodes_run_entries_fields t n e he
    subst heq
    constructor
    · exact Or.inr ⟨row, hrow, rk1, hrk1, e.1, hv1, rfl⟩
    · by_cases hroot : e.2.1 = "root"
      · left
        show (if e.2.1 != "root" then getTaxIDFromNCBI e.2.1 n else "1") = "1"
        rw [if_neg (by simp [hroot])]
      · rcases hpar with hr | ⟨rk2, hrk2, hv2⟩
        · exact absurd hr hroot
        · right
          refine ⟨row, hrow, rk2, hrk2, e.2.1, hv2, ?_⟩
          show (if e.2.1 != "root" then getTaxIDFromNCBI e.2.1 n else "1") =
            getTaxIDFromNCBI e.2.1 n
          rw [if_pos (by simpa using hroot)]

/-- C1 amended: on a table for which both dumps are produced (non-empty,
complete over the seven rank columns — the names emitter raises otherwise),
every child-identifier and parent-identifier of every nodes-stream pair has
at least one corresponding entry in the names stream: a line whose first
field is that identifier.  (The "exactly one" of the original claim fails:
see the counterexample, where one identifier owns two names lines.) -/

theorem C1_referential_closure (t : Table) (n : NCBI) (r0 : List Cell)
    (rest : List (List Cell)) (hrows : t.rows = r0 :: rest)
    (hcomp : rows_complete t = true) :
    ∀ pr ∈ nodes_pairs t n,
      1 ≤ ((create_names_dump t n).getD []).countP (fun l => line_has_id pr.1 l) ∧
      1 ≤ ((create_names_dump t n).getD []).countP (fun l => line_has_id pr.2 l) := by
  intro pr hpr
  have hL := create_names_dump_eq t n r0 rest hrows hcomp
  rw [hL]
  simp only [Option.getD_some]
  have hcomponents := nodes_pairs_components t n pr hpr
  have hgen : ∀ pid : String,
      (pid = "1" ∨ ∃ row ∈ t.rows, ∃ lvl ∈ available_ranks t.cols, ∃ v,
        dfGet t.cols row lvl = some v ∧ pid = getTaxIDFromNCBI v n) →
      1 ≤ (rootNameLine ::
        (names_first_chunk t.cols r0 n ++ names_chunks t.cols r0 rest n)).countP
          (fun l => line_has_id pid l) := by
    intro pid hpid
    rw [← Nat.succ_le_iff.symm]
    apply List.countP_pos_iff.mpr
    rcases hpid with rfl | ⟨row, hrow, lvl, hlvl, v, hv, hid⟩
    · exact ⟨rootNameLine, List.mem_cons_self _ _, by decide⟩
    · have hlvl2 : lvl ∈ rank_order := (List.mem_filter.mp hlvl).1
      have hser : seriesGet t.cols row lvl = some (some v) := seriesGet_of_dfGet hv
      have hrowmem : row ∈ r0 :: rest := by rw [← hrows]; exact hrow
      have hline := names_coverage t.cols n rest r0 row hrowmem lvl hlvl2 v hser
      refine ⟨names_line lvl v n, List.mem_cons_of_mem _ hline, ?_⟩
      rw [hid]
      exact line_has_id_names_line lvl v n
  exact ⟨hgen pr.1 hcomponents.1, hgen pr.2 hcomponents.2⟩

/-- C1, counterexample to the claim as stated: the nodes stream contains the
pair ("A","1"), but the names stream holds two entries with identifier "A"
(the kingdom line "k__A" and the phylum line "p__A"), not exactly one. -/

theorem C1_referential_closure_counterexample :
    ("A", "1") ∈ nodes_pairs tableDupName ncbiNone ∧
    ((create_names_dump tableDupName ncbiNone).getD []).countP
      (fun l => line_has_id "A" l) = 2 := by
  constructor
  · decide
  · decide

/-- Witness for C1 amended at a concrete one-record table and the pair
("B","A") of its nodes stream. -/

theorem C1_referential_closure_witness :
    1 ≤ ((create_names_dump table7 ncbiNone).getD []).countP
      (fun l => line_has_id "B" l) ∧
    1 ≤ ((create_names_dump table7 ncbiNone).getD []).countP
      (fun l => line_has_id "A" l) :=
  C1_referential_closure table7 ncbiNone _ _ rfl (by decide) ("B", "A") (by decide)
